import Mathlib

/-!
Verification of the Bayesian efficiency core of `pycalceff`
(`src/pycalceff/core/effic.py`).

The numerical core is embedded over `ℚ`.  For the integer shape parameters
`(k + 1, N - k + 1)` arising here, the Beta density and the regularized
incomplete beta function are exact rational expressions, so the scipy
primitives `stats.beta.pdf` and `scipy.special.betainc` are modelled by those
closed forms.  Python floats are idealized as exact rationals.

The injected scipy root finder (`brentq`, `bisect`, ...) is an external
capability; it is modelled as an abstract function argument of type
`RootFinder`, and theorems about convergent runs carry the finder's contract
(the returned point lies in the bracket and is an exact root — the
idealization of its `xtol`-convergence guarantee) as hypotheses.

Python exceptions are modelled by the `Err` type and `Except`:
`ValueError msg` for `raise ValueError(msg)`, `AssertionError msg` for a
failing `assert`, and `ZeroDivisionError` for integer/real division by zero
(`k / ntrials` with `ntrials = 0`).
-/

/-- Python exception values raised by the core: every `raise` in
`effic.py` constructs a `ValueError`; the `assert` in
`compute_hpd_interval_general` raises an `AssertionError`; `k / ntrials`
with `ntrials = 0` raises a `ZeroDivisionError`. -/
inductive Err : Type where
  | valueError (msg : String)
  | assertionError (msg : String)
  | zeroDivisionError
deriving DecidableEq

/-- The Python exception class of an error value, as a string. -/
def errClass : Err → String
  | .valueError _ => "ValueError"
  | .assertionError _ => "AssertionError"
  | .zeroDivisionError => "ZeroDivisionError"

instance instDecEqExceptErr {ε α : Type} [DecidableEq ε] [DecidableEq α] :
    DecidableEq (Except ε α) := fun x y =>
  match x, y with
  | .ok a, .ok b => decidable_of_iff (a = b) (by simp)
  | .error e, .error f => decidable_of_iff (e = f) (by simp)
  | .ok _, .error _ => isFalse (by simp)
  | .error _, .ok _ => isFalse (by simp)

/-- Message of the `ValueError` raised by `effic` for an invalid confidence
level (`effic.py` line 312). -/
def msgConflevel : String := "conflevel must be between 0 and 1"

/-- Message of the failing `assert` in `compute_hpd_interval_general`
(`effic.py` line 134). -/
def msgAssert : String := "k must be between 0 and ntrials"

/-- Message of the insufficient-mass `ValueError` in `searchupper`
(`effic.py` lines 223-226), with the f-string interpolations. -/
def msgInsufficientUpper (low integral c : ℚ) : String :=
  "Cannot find upper bound: insufficient mass from " ++ toString low ++
    " to 1.0 (integral=" ++ toString integral ++ ", required=" ++ toString c ++ ")"

/-- Message of the re-raised `ValueError` in `searchupper` when the root
finder fails (`effic.py` lines 235-237). -/
def msgBisectionUpper (low : ℚ) : String :=
  "Bisection failed for upper bound search from " ++ toString low ++ " to 1.0"

/-- Message of the insufficient-mass `ValueError` in `searchlower`
(`effic.py` lines 262-265). -/
def msgInsufficientLower (high integral c : ℚ) : String :=
  "Cannot find lower bound: insufficient mass from 0.0 to " ++ toString high ++
    " (integral=" ++ toString integral ++ ", required=" ++ toString c ++ ")"

/-- Message of the re-raised `ValueError` in `searchlower` when the root
finder fails (`effic.py` lines 274-276). -/
def msgBisectionLower (high : ℚ) : String :=
  "Bisection failed for lower bound search from 0.0 to " ++ toString high

/-- The Beta function `B(a, b)` for positive integer parameters:
`B(a, b) = (a-1)! (b-1)! / (a+b-1)!`.  Models the normalization constant
used by `scipy.stats.beta`. -/
def betaFunc (a b : ℕ) : ℚ :=
  ((a - 1).factorial * (b - 1).factorial : ℚ) / ((a + b - 1).factorial : ℚ)

/-- The Beta density with positive integer shape parameters:
`x^(a-1) (1-x)^(b-1) / B(a, b)`.  Models `scipy.stats.beta.pdf(x, a, b)`
for integer `a`, `b` (scipy's values for invalid, non-positive shape
parameters are outside this rational model). -/
def betaPdf (a b : ℕ) (x : ℚ) : ℚ :=
  x ^ (a - 1) * (1 - x) ^ (b - 1) / betaFunc a b

/-- The regularized incomplete beta function `I_x(a, b)` for positive
integer parameters, via the finite binomial-sum identity
`I_x(a, b) = ∑_{j=a}^{a+b-1} C(a+b-1, j) x^j (1-x)^(a+b-1-j)`.
Models `scipy.special.betainc(a, b, x)` (exactly, for `x ∈ [0, 1]` and
integer parameters). -/
def betainc (a b : ℕ) (x : ℚ) : ℚ :=
  ∑ j ∈ Finset.Icc a (a + b - 1),
    (Nat.choose (a + b - 1) j : ℚ) * x ^ j * (1 - x) ^ (a + b - 1 - j)

/-- Translation of `posterior_density(x, k, ntrials)` (`effic.py` lines
46-60): the posterior density of `Beta(k+1, N-k+1)` at `x`, and `0.0`
outside the open interval `(0, 1)`. -/
def posterior_density (x : ℚ) (k ntrials : ℕ) : ℚ :=
  if 0 < x ∧ x < 1 then betaPdf (k + 1) (ntrials - k + 1) x else 0

/-- Translation of `beta_ab(a, b, k, N)` (`effic.py` lines 183-198): the
probability mass of `Beta(k+1, N-k+1)` between `a` and `b`, computed as a
difference of `betainc` values, with the exact-equality guard `a == b`. -/
def beta_ab (a b : ℚ) (k N : ℕ) : ℚ :=
  if a = b then 0
  else betainc (k + 1) (N - k + 1) b - betainc (k + 1) (N - k + 1) a

/-- The `xtol` passed by `searchupper` and `searchlower` to the root finder
(`1e-12`, idealized as the exact rational). -/
def xtolSearch : ℚ := 1 / 10 ^ 12

/-- The `xtol` passed for the inner equal-density crossing-point searches of
the general HPD solver (`1e-14`). -/
def xtolInner : ℚ := 1 / 10 ^ 14

/-- The `RootFinder` protocol's declared default `xtol` (`2e-12`), in effect
for the outer root find of the general HPD solver, which passes no `xtol`. -/
def xtolDefault : ℚ := 2 / 10 ^ 12

/-- The injected root-finding capability (the `RootFinder` protocol of
`effic.py`, lines 18-35, instantiated by `scipy.optimize.brentq`, `bisect`,
...): arguments are the objective, the bracket `[a, b]`, and `xtol`.
The objective returns `Except` because in Python an exception raised inside
the objective propagates out of the scipy call; `rtol`, `maxiter`,
`full_output` and `disp` are defaulted at every call site of the core and
are not modelled. -/
abbrev RootFinder : Type :=
  (ℚ → Except Err ℚ) → ℚ → ℚ → ℚ → Except Err ℚ

/-- Translation of `searchupper(low, k, numtrials, c, root_finder)`
(`effic.py` lines 201-237): find the upper edge of the integration region
starting at `low` that contains probability content `c`.  A `ValueError`
escaping the root finder is caught and re-raised with a new message
(`except ValueError: raise ... from None`); other exceptions propagate. -/
def searchupper (low : ℚ) (k numtrials : ℕ) (c : ℚ) (rf : RootFinder) :
    Except Err ℚ :=
  let integral := beta_ab low 1 k numtrials
  if integral = c then .ok 1
  else if integral < c then
    .error (.valueError (msgInsufficientUpper low integral c))
  else
    match rf (fun x => .ok (beta_ab low x k numtrials - c)) low 1 xtolSearch with
    | .ok r => .ok r
    | .error (.valueError _) => .error (.valueError (msgBisectionUpper low))
    | .error e => .error e

/-- Translation of `searchlower(high, k, ntrials, c, root_finder)`
(`effic.py` lines 240-276): find the lower edge of the integration region
ending at `high` that contains probability content `c`. -/
def searchlower (high : ℚ) (k ntrials : ℕ) (c : ℚ) (rf : RootFinder) :
    Except Err ℚ :=
  let integral := beta_ab 0 high k ntrials
  if integral = c then .ok 0
  else if integral < c then
    .error (.valueError (msgInsufficientLower high integral c))
  else
    match rf (fun x => .ok (beta_ab x high k ntrials - c)) 0 high xtolSearch with
    | .ok r => .ok r
    | .error (.valueError _) => .error (.valueError (msgBisectionLower high))
    | .error e => .error e

/-- Translation of the closure `mass_diff(h)` inside
`compute_hpd_interval_general` (`effic.py` lines 139-146): at density level
`h`, locate the two equal-density crossing points around the mode with the
injected root finder (`xtol=1e-14`) and return the enclosed mass minus the
confidence level. -/
def mass_diff (k ntrials : ℕ) (conflevel : ℚ) (rf : RootFinder) (h : ℚ) :
    Except Err ℚ :=
  let mode : ℚ := (k : ℚ) / (ntrials : ℚ)
  match rf (fun x => .ok (posterior_density x k ntrials - h)) 0 mode xtolInner with
  | .error e => .error e
  | .ok a =>
    match rf (fun x => .ok (posterior_density x k ntrials - h)) mode 1 xtolInner with
    | .error e => .error e
    | .ok b => .ok (beta_ab a b k ntrials - conflevel)

/-- Translation of `compute_hpd_interval_general(k, ntrials, conflevel,
root_finder)` (`effic.py` lines 118-156): solve for the density level `h`
whose equal-density crossing points enclose mass `conflevel` (outer root
find over `[0, density(mode)]`, with the protocol's default `xtol=2e-12`),
then recompute the two crossing points at the converged `h`.  The leading
Python `assert 0 < k < ntrials` raises an `AssertionError` when violated. -/
def compute_hpd_interval_general (k ntrials : ℕ) (conflevel : ℚ)
    (rf : RootFinder) : Except Err (ℚ × ℚ) :=
  if ¬(0 < k ∧ k < ntrials) then .error (.assertionError msgAssert)
  else
    let mode : ℚ := (k : ℚ) / (ntrials : ℚ)
    match rf (mass_diff k ntrials conflevel rf) 0
        (posterior_density mode k ntrials) xtolDefault with
    | .error e => .error e
    | .ok h =>
      match rf (fun x => .ok (posterior_density x k ntrials - h)) 0 mode xtolInner with
      | .error e => .error e
      | .ok a =>
        match rf (fun x => .ok (posterior_density x k ntrials - h)) mode 1 xtolInner with
        | .error e => .error e
        | .ok b => .ok (a, b)

/-- Translation of `compute_hpd_interval_k_zero(ntrials, conflevel,
root_finder)` (`effic.py` lines 81-96): for `k = 0` the interval is
`[0, searchupper(0, 0, ntrials, conflevel)]`. -/
def compute_hpd_interval_k_zero (ntrials : ℕ) (conflevel : ℚ)
    (rf : RootFinder) : Except Err (ℚ × ℚ) :=
  match searchupper 0 0 ntrials conflevel rf with
  | .ok high => .ok (0, high)
  | .error e => .error e

/-- Translation of `compute_hpd_interval_k_ntrials(ntrials, conflevel,
root_finder)` (`effic.py` lines 99-115): for `k = ntrials` the interval is
`[searchlower(1, ntrials, ntrials, conflevel), 1]`. -/
def compute_hpd_interval_k_ntrials (ntrials : ℕ) (conflevel : ℚ)
    (rf : RootFinder) : Except Err (ℚ × ℚ) :=
  match searchlower 1 ntrials ntrials conflevel rf with
  | .ok low => .ok (low, 1)
  | .error e => .error e

/-- Translation of `compute_hpd_interval(k, ntrials, conflevel,
root_finder)` (`effic.py` lines 159-180): dispatch on the degenerate cases
`k = 0` and `k = ntrials`, else the general solver. -/
def compute_hpd_interval (k ntrials : ℕ) (conflevel : ℚ) (rf : RootFinder) :
    Except Err (ℚ × ℚ) :=
  if k = 0 then compute_hpd_interval_k_zero ntrials conflevel rf
  else if k = ntrials then compute_hpd_interval_k_ntrials ntrials conflevel rf
  else compute_hpd_interval_general k ntrials conflevel rf

/-- Translation of `effic(k, ntrials, conflevel, root_finder)`
(`effic.py` lines 294-329): validate the confidence level, compute the
mode `k / ntrials` (a `ZeroDivisionError` in Python when `ntrials = 0`),
dispatch (the three source branches are textually identical calls to
`compute_hpd_interval`), and clamp the bounds to `[0, 1]`. -/
def effic (k ntrials : ℕ) (conflevel : ℚ) (rf : RootFinder) :
    Except Err (ℚ × ℚ × ℚ) :=
  if ¬(0 < conflevel ∧ conflevel < 1) then .error (.valueError msgConflevel)
  else if ntrials = 0 then .error .zeroDivisionError
  else
    let mode : ℚ := (k : ℚ) / (ntrials : ℚ)
    match
      (if k = 0 then compute_hpd_interval k ntrials conflevel rf
       else if k = ntrials then compute_hpd_interval k ntrials conflevel rf
       else compute_hpd_interval k ntrials conflevel rf) with
    | .error e => .error e
    | .ok (low, high) => .ok (mode, max 0 low, min 1 high)

/-- The two HPD algorithms of the newer solver.  Modelled from the spec:
the enumeration `HPDAlgorithm` (§4.4, §9 and the test suite) is absent from
the core source in `src`, which predates the algorithm selector. -/
inductive HPDAlgorithm : Type where
  | ROOT_FINDING
  | BINARY_SEARCH
deriving DecidableEq

/-- Modelled from the spec: Algorithm B of §4.3 ("direct two-point
search"), absent from the core source in `src`.  A derivative-free search
over `low` in `(0, mode)` — abstracted, like the root finder, as an
injected capability `bs` receiving the objective
`density(low) - density(search_bound(low, ..., UPPER))` and the bracket —
selects the lower endpoint; the matching `high` is recomputed via the
upper boundary search for the same target mass. -/
def shortest_hpd_binary_search (k ntrials : ℕ) (conflevel : ℚ)
    (rf : RootFinder) (bs : (ℚ → Except Err ℚ) → ℚ → ℚ → Except Err ℚ) :
    Except Err (ℚ × ℚ) :=
  let mode : ℚ := (k : ℚ) / (ntrials : ℚ)
  let objective : ℚ → Except Err ℚ := fun x =>
    match searchupper x k ntrials conflevel rf with
    | .error e => .error e
    | .ok hi => .ok (posterior_density x k ntrials - posterior_density hi k ntrials)
  match bs objective 0 mode with
  | .error e => .error e
  | .ok low =>
    match searchupper low k ntrials conflevel rf with
    | .error e => .error e
    | .ok high => .ok (low, high)

/-- Modelled from the spec: `effic` with the algorithm selector of §4.4 and
§6 (`effic(k, N, C, algorithm?, root_finder?)`), absent from the core
source in `src` (only the tests and the profiling script refer to it).
Degenerate cases bypass both algorithms (§4.3); the general case
dispatches on the selector. -/
def efficAlg (k ntrials : ℕ) (conflevel : ℚ) (alg : HPDAlgorithm)
    (rf : RootFinder) (bs : (ℚ → Except Err ℚ) → ℚ → ℚ → Except Err ℚ) :
    Except Err (ℚ × ℚ × ℚ) :=
  if ¬(0 < conflevel ∧ conflevel < 1) then .error (.valueError msgConflevel)
  else if ntrials = 0 then .error .zeroDivisionError
  else
    let mode : ℚ := (k : ℚ) / (ntrials : ℚ)
    match
      (if k = 0 then compute_hpd_interval_k_zero ntrials conflevel rf
       else if k = ntrials then compute_hpd_interval_k_ntrials ntrials conflevel rf
       else
         match alg with
         | .ROOT_FINDING => compute_hpd_interval_general k ntrials conflevel rf
         | .BINARY_SEARCH => shortest_hpd_binary_search k ntrials conflevel rf bs) with
    | .error e => .error e
    | .ok (low, high) => .ok (mode, max 0 low, min 1 high)

/-- Message of the `ValueError` raised by scipy's bracketed root finders
when the bracket has no sign change; used by the concrete capability
instances below. -/
def msgSignError : String := "f(a) and f(b) must have different signs"

/-- A concrete root-finder instance that never searches (returns `0`);
used where the error path under scrutiny is reached before any root
search. -/
def rfZero : RootFinder := fun _ _ _ _ => .ok 0

/-- A concrete root-finder instance that always fails with the scipy
bracket `ValueError`; drives the convergence-failure path. -/
def rfFail : RootFinder := fun _ _ _ _ => .error (.valueError msgSignError)

/-- A concrete root-finder instance returning the left bracket endpoint:
it satisfies the in-bracket half of the `RootFinder` contract. -/
def rfInBracket : RootFinder :=
  fun _ a b _ => if a ≤ b then .ok a else .error (.valueError msgSignError)

/-- A concrete root-finder instance that returns the exact roots of the
HPD system for `k = 1`, `N = 2`, `C = 11/16` (posterior `Beta(2, 2)`,
density `6x(1-x)`, mode `1/2`, HPD interval `[1/4, 3/4]` at level
`h = 9/8`), dispatching on the bracket passed to it. -/
def rfW : RootFinder := fun _ a b _ =>
  if a = 0 ∧ b = 3/2 then .ok (9/8)
  else if a = 0 ∧ b = 1/2 then .ok (1/4)
  else if a = 1/2 ∧ b = 1 then .ok (3/4)
  else if a = 1/4 ∧ b = 1 then .ok (3/4)
  else .error (.valueError msgSignError)

/-- A concrete direct-search capability for Algorithm B that returns the
exact optimal lower endpoint `1/4` for `k = 1`, `N = 2`, `C = 11/16`. -/
def bsW : (ℚ → Except Err ℚ) → ℚ → ℚ → Except Err ℚ := fun _ a b =>
  if a = 0 ∧ b = 1/2 then .ok (1/4) else .error (.valueError msgSignError)

/-- A concrete root-finder instance that always returns `1/2`: the exact
boundary-search root for the degenerate cases `k = 0`, `N = 1`, `C = 3/4`
(upper search from `0`) and `k = N = 1`, `C = 3/4` (lower search from
`1`). -/
def rfHalf : RootFinder := fun _ _ _ _ => .ok (1/2)

/-- The Beta density written in the spec's normalized form
`x^(a-1) (1-x)^(b-1) · (a+b-1)! / ((a-1)! (b-1)!)`; the mathematical
Beta(a, b) density against which `posterior_density` is compared. -/
def betaDensity (a b : ℕ) (x : ℚ) : ℚ :=
  ((a + b - 1).factorial : ℚ) / (((a - 1).factorial : ℚ) * ((b - 1).factorial : ℚ)) *
    x ^ (a - 1) * (1 - x) ^ (b - 1)

/-- Real Beta kernel `x^k (1-x)^(N-k)`: scaffolding for the unimodality and
shortest-interval analysis of the posterior density. -/
noncomputable def gR (k N : ℕ) (x : ℝ) : ℝ := x ^ k * (1 - x) ^ (N - k)

/-- Real form of the binomial sum defining `betainc (k+1) (N-k+1)`: the
Beta(k+1, N-k+1) distribution function as a polynomial. -/
noncomputable def FR (k N : ℕ) (x : ℝ) : ℝ :=
  ∑ j ∈ Finset.Icc (k + 1) (N + 1),
    (Nat.choose (N + 1) j : ℝ) * x ^ j * (1 - x) ^ (N + 1 - j)

/-- Telescoping summand for the derivative of `FR`. -/
noncomputable def TR (N : ℕ) (x : ℝ) (j : ℕ) : ℝ :=
  ((Nat.choose (N + 1) j * j : ℕ) : ℝ) * x ^ (j - 1) * (1 - x) ^ (N + 1 - j)


theorem hasDerivAt_bernstein (c : ℝ) (j m : ℕ) (x : ℝ) :
    HasDerivAt (fun y : ℝ => c * y ^ j * (1 - y) ^ m)
      (c * (↑j * x ^ (j - 1)) * (1 - x) ^ m +
        c * x ^ j * (↑m * (1 - x) ^ (m - 1) * (-1))) x :=
  ((hasDerivAt_pow j x).const_mul c).mul (((hasDerivAt_id x).const_sub 1).pow m)

theorem hasDerivAt_FR (k N : ℕ) (hkN : k ≤ N) (x : ℝ) :
    HasDerivAt (FR k N) ((((N + 1) * Nat.choose N k : ℕ) : ℝ) * gR k N x) x := by
  have hterm : ∀ j ∈ Finset.Icc (k + 1) (N + 1),
      HasDerivAt (fun y : ℝ => (Nat.choose (N + 1) j : ℝ) * y ^ j * (1 - y) ^ (N + 1 - j))
        (TR N x j - TR N x (j + 1)) x := by
    intro j hj
    rw [Finset.mem_Icc] at hj
    have base := hasDerivAt_bernstein (Nat.choose (N + 1) j : ℝ) j (N + 1 - j) x
    convert base using 1
    unfold TR
    have hch : (Nat.choose (N + 1) (j + 1) * (j + 1) : ℕ) = Nat.choose (N + 1) j * (N + 1 - j) :=
      Nat.choose_succ_right_eq (N + 1) j
    rw [hch]
    have he : N + 1 - (j + 1) = N + 1 - j - 1 := by omega
    rw [he]
    push_cast
    ring
  have hsum := HasDerivAt.sum hterm
  have htel : (∑ j ∈ Finset.Icc (k + 1) (N + 1), (TR N x j - TR N x (j + 1)))
      = (((N + 1) * Nat.choose N k : ℕ) : ℝ) * gR k N x := by
    rw [← Nat.Ico_succ_right, Finset.sum_Ico_eq_sum_range]
    have htl : (∑ i ∈ Finset.range ((N + 1).succ - (k + 1)),
        (TR N x (k + 1 + i) - TR N x (k + 1 + i + 1)))
        = TR N x (k + 1 + 0) - TR N x (k + 1 + ((N + 1).succ - (k + 1))) :=
      Finset.sum_range_sub' (fun i => TR N x (k + 1 + i)) ((N + 1).succ - (k + 1))
    rw [htl]
    have h1 : k + 1 + ((N + 1).succ - (k + 1)) = N + 2 := by omega
    rw [Nat.add_zero, h1]
    have h2 : TR N x (N + 2) = 0 := by
      unfold TR
      rw [Nat.choose_eq_zero_of_lt (by omega)]
      simp
    rw [h2, sub_zero]
    unfold TR gR
    rw [← Nat.succ_mul_choose_eq]
    have h3 : N + 1 - (k + 1) = N - k := by omega
    rw [h3]
    push_cast
    ring
  rw [← htel]
  exact hsum

theorem FR_differentiable (k N : ℕ) (hkN : k ≤ N) : Differentiable ℝ (FR k N) :=
  fun x => (hasDerivAt_FR k N hkN x).differentiableAt

theorem gR_pos (k N : ℕ) (x : ℝ) (hx : 0 < x) (hx1 : x < 1) : 0 < gR k N x :=
  mul_pos (pow_pos hx _) (pow_pos (by linarith) _)

theorem gR_continuous (k N : ℕ) : Continuous (gR k N) :=
  (continuous_pow k).mul ((continuous_const.sub continuous_id).pow _)

theorem FR_strictMonoOn (k N : ℕ) (hkN : k ≤ N) :
    StrictMonoOn (FR k N) (Set.Icc 0 1) := by
  apply strictMonoOn_of_deriv_pos (convex_Icc 0 1)
  · exact (FR_differentiable k N hkN).continuous.continuousOn
  · intro x hx
    rw [interior_Icc] at hx
    rw [(hasDerivAt_FR k N hkN x).deriv]
    have h1 : (0:ℝ) < (((N + 1) * Nat.choose N k : ℕ) : ℝ) := by
      have := Nat.choose_pos hkN
      positivity
    exact mul_pos h1 (gR_pos k N x hx.1 hx.2)

theorem hasDerivAt_gR (k N : ℕ) (x : ℝ) :
    HasDerivAt (gR k N)
      ((↑k * x ^ (k - 1)) * (1 - x) ^ (N - k) +
        x ^ k * (↑(N - k) * (1 - x) ^ (N - k - 1) * (-1))) x :=
  (hasDerivAt_pow k x).mul (((hasDerivAt_id x).const_sub 1).pow (N - k))

theorem gR_deriv_factored (k N : ℕ) (hk : 0 < k) (hkN : k < N) (x : ℝ) :
    (↑k * x ^ (k - 1)) * (1 - x) ^ (N - k) +
      x ^ k * (↑(N - k) * (1 - x) ^ (N - k - 1) * (-1))
    = ((k : ℝ) - N * x) * (x ^ (k - 1) * (1 - x) ^ (N - k - 1)) := by
  obtain ⟨k', rfl⟩ : ∃ k', k = k' + 1 := ⟨k - 1, by omega⟩
  obtain ⟨m', hm'⟩ : ∃ m', N - (k' + 1) = m' + 1 := ⟨N - k' - 2, by omega⟩
  have hN : (N : ℝ) = (k' + 1 : ℕ) + ((m' + 1 : ℕ) : ℝ) := by
    have : N = k' + 1 + (m' + 1) := by omega
    rw [this]
    push_cast
    ring
  rw [hm', hN]
  push_cast
  ring

theorem gR_strictMonoOn (k N : ℕ) (hk : 0 < k) (hkN : k < N) :
    StrictMonoOn (gR k N) (Set.Icc 0 ((k : ℝ) / (N : ℝ))) := by
  have hN : (0:ℝ) < (N : ℝ) := by
    have : 0 < N := by omega
    exact_mod_cast this
  apply strictMonoOn_of_deriv_pos (convex_Icc _ _)
  · exact (gR_continuous k N).continuousOn
  · intro x hx
    rw [interior_Icc] at hx
    obtain ⟨hx0, hxm⟩ := hx
    have hx1 : x < 1 := by
      have hm1 : (k : ℝ) / (N : ℝ) < 1 := by
        rw [div_lt_one hN]
        exact_mod_cast hkN
      linarith
    rw [(hasDerivAt_gR k N x).deriv, gR_deriv_factored k N hk hkN x]
    apply mul_pos
    · have : x * (N : ℝ) < (k : ℝ) := by
        have := (lt_div_iff₀ hN).1 hxm
        linarith
      linarith
    · have h1x : (0:ℝ) < 1 - x := by linarith
      positivity

theorem gR_strictAntiOn (k N : ℕ) (hk : 0 < k) (hkN : k < N) :
    StrictAntiOn (gR k N) (Set.Icc ((k : ℝ) / (N : ℝ)) 1) := by
  have hN : (0:ℝ) < (N : ℝ) := by
    have : 0 < N := by omega
    exact_mod_cast this
  apply strictAntiOn_of_deriv_neg (convex_Icc _ _)
  · exact (gR_continuous k N).continuousOn
  · intro x hx
    rw [interior_Icc] at hx
    obtain ⟨hxm, hx1⟩ := hx
    have hx0 : 0 < x := by
      have hm0 : (0:ℝ) < (k : ℝ) / (N : ℝ) := by positivity
      linarith
    rw [(hasDerivAt_gR k N x).deriv, gR_deriv_factored k N hk hkN x]
    have hneg : (k : ℝ) - N * x < 0 := by
      have := (div_lt_iff₀ hN).1 hxm
      linarith
    have hpos : (0:ℝ) < x ^ (k - 1) * (1 - x) ^ (N - k - 1) := by
      have h1x : (0:ℝ) < 1 - x := by linarith
      positivity
    exact mul_neg_of_neg_of_pos hneg hpos

theorem FR_sub_le (k N : ℕ) (hkN : k ≤ N) (u v H : ℝ) (huv : u ≤ v)
    (hb : ∀ x ∈ Set.Ioo u v, (((N + 1) * Nat.choose N k : ℕ) : ℝ) * gR k N x ≤ H) :
    FR k N v - FR k N u ≤ H * (v - u) := by
  rcases eq_or_lt_of_le huv with rfl | hlt
  · simp
  · have hφ : ∀ x : ℝ, HasDerivAt (fun y => H * y - FR k N y)
        (H - (((N + 1) * Nat.choose N k : ℕ) : ℝ) * gR k N x) x := by
      intro x
      have h1 : HasDerivAt (fun y : ℝ => H * y) (H * 1) x := (hasDerivAt_id x).const_mul H
      rw [mul_one] at h1
      exact h1.sub (hasDerivAt_FR k N hkN x)
    have hmono : MonotoneOn (fun y => H * y - FR k N y) (Set.Icc u v) := by
      apply monotoneOn_of_deriv_nonneg (convex_Icc _ _)
      · exact (Continuous.sub (continuous_const.mul continuous_id)
          (FR_differentiable k N hkN).continuous).continuousOn
      · intro x hx
        exact (hφ x).differentiableAt.differentiableWithinAt
      · intro x hx
        rw [interior_Icc] at hx
        rw [(hφ x).deriv]
        linarith [hb x hx]
    have := hmono (Set.left_mem_Icc.2 huv) (Set.right_mem_Icc.2 huv) huv
    simp only at this
    linarith

theorem FR_sub_ge (k N : ℕ) (hkN : k ≤ N) (u v H : ℝ) (huv : u ≤ v)
    (hb : ∀ x ∈ Set.Ioo u v, H ≤ (((N + 1) * Nat.choose N k : ℕ) : ℝ) * gR k N x) :
    H * (v - u) ≤ FR k N v - FR k N u := by
  rcases eq_or_lt_of_le huv with rfl | hlt
  · simp
  · have hφ : ∀ x : ℝ, HasDerivAt (fun y => FR k N y - H * y)
        ((((N + 1) * Nat.choose N k : ℕ) : ℝ) * gR k N x - H) x := by
      intro x
      have h1 : HasDerivAt (fun y : ℝ => H * y) (H * 1) x := (hasDerivAt_id x).const_mul H
      rw [mul_one] at h1
      exact (hasDerivAt_FR k N hkN x).sub h1
    have hmono : MonotoneOn (fun y => FR k N y - H * y) (Set.Icc u v) := by
      apply monotoneOn_of_deriv_nonneg (convex_Icc _ _)
      · exact (Continuous.sub (FR_differentiable k N hkN).continuous
          (continuous_const.mul continuous_id)).continuousOn
      · intro x hx
        exact (hφ x).differentiableAt.differentiableWithinAt
      · intro x hx
        rw [interior_Icc] at hx
        rw [(hφ x).deriv]
        linarith [hb x hx]
    have := hmono (Set.left_mem_Icc.2 huv) (Set.right_mem_Icc.2 huv) huv
    simp only at this
    linarith

theorem betainc_cast (k N : ℕ) (hkN : k ≤ N) (q : ℚ) :
    ((betainc (k + 1) (N - k + 1) q : ℚ) : ℝ) = FR k N (q : ℝ) := by
  unfold betainc FR
  have h1 : k + 1 + (N - k + 1) - 1 = N + 1 := by omega
  rw [h1]
  push_cast
  rfl

theorem rat_mode_cast (k N : ℕ) : (((k : ℚ) / (N : ℚ) : ℚ) : ℝ) = (k : ℝ) / (N : ℝ) := by
  push_cast
  rfl

theorem posterior_density_cast (k N : ℕ) (hk : 0 < k) (hkN : k < N) (q : ℚ)
    (h0 : 0 ≤ q) (h1 : q ≤ 1) :
    ((posterior_density q k N : ℚ) : ℝ) =
      (((N + 1) * Nat.choose N k : ℕ) : ℝ) * gR k N (q : ℝ) := by
  unfold posterior_density betaPdf betaFunc gR
  by_cases hq : 0 < q ∧ q < 1
  · rw [if_pos hq]
    have e1 : k + 1 - 1 = k := by omega
    have e2 : N - k + 1 - 1 = N - k := by omega
    have e3 : k + 1 + (N - k + 1) - 1 = N + 1 := by omega
    rw [e1, e2, e3]
    have hfac : (Nat.choose N k * (Nat.factorial k * Nat.factorial (N - k)) : ℕ) =
        Nat.factorial N := by
      have h := Nat.choose_mul_factorial_mul_factorial (le_of_lt hkN)
      rw [← h]
      ring
    have key : (Nat.factorial (N + 1) : ℕ) =
        (N + 1) * (Nat.choose N k * (Nat.factorial k * Nat.factorial (N - k))) := by
      rw [hfac, Nat.factorial_succ]
    have hk0 : ((Nat.factorial k : ℚ) : ℝ) ≠ 0 := by
      have := Nat.factorial_pos k
      positivity
    have hnk0 : ((Nat.factorial (N - k) : ℚ) : ℝ) ≠ 0 := by
      have := Nat.factorial_pos (N - k)
      positivity
    have hn10 : ((Nat.factorial (N + 1) : ℚ) : ℝ) ≠ 0 := by
      have := Nat.factorial_pos (N + 1)
      positivity
    push_cast
    rw [div_div_eq_mul_div, div_eq_iff (by positivity)]
    push_cast [key]
    ring
  · rw [if_neg hq]
    have hq01 : q = 0 ∨ q = 1 := by
      rcases lt_or_ge q 1 with h | h
      · left
        by_contra hne
        exact hq ⟨lt_of_le_of_ne h0 (Ne.symm hne), h⟩
      · right
        linarith
    rcases hq01 with rfl | rfl
    · rw [Rat.cast_zero]
      rw [zero_pow (by omega : k ≠ 0)]
      simp
    · rw [Rat.cast_one]
      rw [sub_self, zero_pow (by omega : N - k ≠ 0)]
      simp

theorem betainc_strict_mono (k N : ℕ) (hkN : k ≤ N) (x y : ℚ)
    (hx : 0 ≤ x) (hxy : x < y) (hy : y ≤ 1) :
    betainc (k + 1) (N - k + 1) x < betainc (k + 1) (N - k + 1) y := by
  have hmem1 : (x : ℝ) ∈ Set.Icc (0:ℝ) 1 := by
    constructor <;> [exact_mod_cast hx; exact_mod_cast le_of_lt (lt_of_lt_of_le hxy hy)]
  have hmem2 : (y : ℝ) ∈ Set.Icc (0:ℝ) 1 := by
    constructor <;> [exact_mod_cast le_of_lt (lt_of_le_of_lt hx hxy); exact_mod_cast hy]
  have h := FR_strictMonoOn k N hkN hmem1 hmem2 (by exact_mod_cast hxy)
  have hc1 := betainc_cast k N hkN x
  have hc2 := betainc_cast k N hkN y
  have : ((betainc (k + 1) (N - k + 1) x : ℚ) : ℝ) < ((betainc (k + 1) (N - k + 1) y : ℚ) : ℝ) := by
    rw [hc1, hc2]
    exact h
  exact_mod_cast this

theorem betainc_zero_eq (k N : ℕ) : betainc (k + 1) (N - k + 1) 0 = 0 := by
  unfold betainc
  apply Finset.sum_eq_zero
  intro j hj
  rw [Finset.mem_Icc] at hj
  rw [zero_pow (by omega : j ≠ 0)]
  ring

theorem betainc_one_eq (k N : ℕ) (hkN : k ≤ N) : betainc (k + 1) (N - k + 1) 1 = 1 := by
  unfold betainc
  have h1 : k + 1 + (N - k + 1) - 1 = N + 1 := by omega
  rw [h1]
  rw [Finset.sum_eq_single (N + 1)]
  · rw [Nat.choose_self, Nat.sub_self]
    norm_num
  · intro j hj hne
    rw [Finset.mem_Icc] at hj
    rw [sub_self, zero_pow (by omega : N + 1 - j ≠ 0)]
    ring
  · intro h
    exact absurd (Finset.mem_Icc.2 ⟨by omega, le_refl _⟩) h

theorem pd_lt_of_lt_left (k N : ℕ) (hk : 0 < k) (hkN : k < N) (x y : ℚ)
    (hx : 0 ≤ x) (hxy : x < y) (hy : y ≤ (k : ℚ) / (N : ℚ)) :
    posterior_density x k N < posterior_density y k N := by
  have hN : (0:ℚ) < (N : ℚ) := by
    have : 0 < N := by omega
    exact_mod_cast this
  have hm1 : (k : ℚ) / (N : ℚ) ≤ 1 := by
    rw [div_le_one hN]
    exact_mod_cast le_of_lt hkN
  have hy1 : y ≤ 1 := le_trans hy hm1
  have hx1 : x ≤ 1 := by linarith
  have hcx := posterior_density_cast k N hk hkN x hx hx1
  have hcy := posterior_density_cast k N hk hkN y (by linarith) hy1
  have hmemx : (x : ℝ) ∈ Set.Icc (0:ℝ) ((k : ℝ) / (N : ℝ)) := by
    constructor
    · exact_mod_cast hx
    · rw [← rat_mode_cast]
      exact_mod_cast le_of_lt (lt_of_lt_of_le hxy hy)
  have hmemy : (y : ℝ) ∈ Set.Icc (0:ℝ) ((k : ℝ) / (N : ℝ)) := by
    constructor
    · exact_mod_cast le_of_lt (lt_of_le_of_lt hx hxy)
    · rw [← rat_mode_cast]
      exact_mod_cast hy
  have hg := gR_strictMonoOn k N hk hkN hmemx hmemy (by exact_mod_cast hxy)
  have hc : (0:ℝ) < (((N + 1) * Nat.choose N k : ℕ) : ℝ) := by
    have := Nat.choose_pos (le_of_lt hkN)
    positivity
  have : ((posterior_density x k N : ℚ) : ℝ) < ((posterior_density y k N : ℚ) : ℝ) := by
    rw [hcx, hcy]
    exact mul_lt_mul_of_pos_left hg hc
  exact_mod_cast this

theorem pd_lt_of_lt_right (k N : ℕ) (hk : 0 < k) (hkN : k < N) (x y : ℚ)
    (hx : (k : ℚ) / (N : ℚ) ≤ x) (hxy : x < y) (hy : y ≤ 1) :
    posterior_density y k N < posterior_density x k N := by
  have hN : (0:ℚ) < (N : ℚ) := by
    have : 0 < N := by omega
    exact_mod_cast this
  have hm0 : (0:ℚ) ≤ (k : ℚ) / (N : ℚ) := by positivity
  have hx0 : 0 ≤ x := le_trans hm0 hx
  have hcx := posterior_density_cast k N hk hkN x hx0 (by linarith)
  have hcy := posterior_density_cast k N hk hkN y (by linarith) hy
  have hmemx : (x : ℝ) ∈ Set.Icc ((k : ℝ) / (N : ℝ)) 1 := by
    constructor
    · rw [← rat_mode_cast]
      exact_mod_cast hx
    · exact_mod_cast le_of_lt (lt_of_lt_of_le hxy hy)
  have hmemy : (y : ℝ) ∈ Set.Icc ((k : ℝ) / (N : ℝ)) 1 := by
    constructor
    · rw [← rat_mode_cast]
      exact_mod_cast le_trans hx (le_of_lt hxy)
    · exact_mod_cast hy
  have hg := gR_strictAntiOn k N hk hkN hmemx hmemy (by exact_mod_cast hxy)
  have hc : (0:ℝ) < (((N + 1) * Nat.choose N k : ℕ) : ℝ) := by
    have := Nat.choose_pos (le_of_lt hkN)
    positivity
  have : ((posterior_density y k N : ℚ) : ℝ) < ((posterior_density x k N : ℚ) : ℝ) := by
    rw [hcx, hcy]
    exact mul_lt_mul_of_pos_left hg hc
  exact_mod_cast this

theorem pd_pos_of_mem (k N : ℕ) (hk : 0 < k) (hkN : k < N) (x : ℚ)
    (hx : 0 < x) (hx1 : x < 1) : 0 < posterior_density x k N := by
  have hc := posterior_density_cast k N hk hkN x (le_of_lt hx) (le_of_lt hx1)
  have hg : (0:ℝ) < gR k N (x : ℝ) := gR_pos k N _ (by exact_mod_cast hx) (by exact_mod_cast hx1)
  have hcc : (0:ℝ) < (((N + 1) * Nat.choose N k : ℕ) : ℝ) := by
    have := Nat.choose_pos (le_of_lt hkN)
    positivity
  have : (0:ℝ) < ((posterior_density x k N : ℚ) : ℝ) := by
    rw [hc]
    exact mul_pos hcc hg
  exact_mod_cast this

theorem pd_zero_eq (k N : ℕ) : posterior_density 0 k N = 0 := by
  unfold posterior_density
  rw [if_neg]
  intro h
  exact absurd h.1 (lt_irrefl 0)

theorem pd_one_eq (k N : ℕ) : posterior_density 1 k N = 0 := by
  unfold posterior_density
  rw [if_neg]
  intro h
  exact absurd h.2 (lt_irrefl 1)

theorem cR_pos (k N : ℕ) (hkN : k < N) :
    (0:ℝ) < (((N + 1) * Nat.choose N k : ℕ) : ℝ) := by
  have := Nat.choose_pos (le_of_lt hkN)
  positivity

theorem mode_le_one (k N : ℕ) (hkN : k < N) : (k : ℚ) / (N : ℚ) ≤ 1 := by
  have hN : (0:ℚ) < (N : ℚ) := by
    have : 0 < N := by omega
    exact_mod_cast this
  rw [div_le_one hN]
  exact_mod_cast le_of_lt hkN

theorem mass_le_of_left (k N : ℕ) (hk : 0 < k) (hkN : k < N) (u v a : ℚ)
    (hu : 0 ≤ u) (huv : u ≤ v) (hva : v ≤ a) (ham : a ≤ (k : ℚ) / (N : ℚ)) :
    betainc (k + 1) (N - k + 1) v - betainc (k + 1) (N - k + 1) u ≤
      posterior_density a k N * (v - u) := by
  have ha0 : (0:ℚ) ≤ a := le_trans hu (le_trans huv hva)
  have ha1 : a ≤ 1 := le_trans ham (mode_le_one k N hkN)
  have hca := posterior_density_cast k N hk hkN a ha0 ha1
  have hb : ∀ x ∈ Set.Ioo (u:ℝ) (v:ℝ),
      (((N + 1) * Nat.choose N k : ℕ) : ℝ) * gR k N x ≤ ((posterior_density a k N : ℚ) : ℝ) := by
    intro x hx
    rw [hca]
    apply mul_le_mul_of_nonneg_left _ (le_of_lt (cR_pos k N hkN))
    apply le_of_lt
    apply gR_strictMonoOn k N hk hkN
    · constructor
      · have : (0:ℝ) ≤ (u:ℝ) := by exact_mod_cast hu
        linarith [hx.1]
      · have h1 : x < (v:ℝ) := hx.2
        have h2 : (v:ℝ) ≤ (a:ℝ) := by exact_mod_cast hva
        have h3 : ((a:ℚ):ℝ) ≤ ((k : ℚ) / (N : ℚ) : ℚ) := by exact_mod_cast ham
        rw [rat_mode_cast] at h3
        linarith
    · constructor
      · exact_mod_cast ha0
      · rw [← rat_mode_cast]
        exact_mod_cast ham
    · have h2 : (v:ℝ) ≤ (a:ℝ) := by exact_mod_cast hva
      linarith [hx.2]
  have hreal := FR_sub_le k N (le_of_lt hkN) (u:ℝ) (v:ℝ) _ (by exact_mod_cast huv) hb
  rw [← betainc_cast k N (le_of_lt hkN) u, ← betainc_cast k N (le_of_lt hkN) v] at hreal
  have : ((betainc (k + 1) (N - k + 1) v - betainc (k + 1) (N - k + 1) u : ℚ) : ℝ) ≤
      ((posterior_density a k N * (v - u) : ℚ) : ℝ) := by
    push_cast
    linarith
  exact_mod_cast this

theorem mass_le_of_right (k N : ℕ) (hk : 0 < k) (hkN : k < N) (u v : ℚ)
    (hmu : (k : ℚ) / (N : ℚ) ≤ u) (huv : u ≤ v) (hv : v ≤ 1) :
    betainc (k + 1) (N - k + 1) v - betainc (k + 1) (N - k + 1) u ≤
      posterior_density u k N * (v - u) := by
  have hm0 : (0:ℚ) ≤ (k : ℚ) / (N : ℚ) := by positivity
  have hu0 : (0:ℚ) ≤ u := le_trans hm0 hmu
  have hu1 : u ≤ 1 := le_trans huv hv
  have hcu := posterior_density_cast k N hk hkN u hu0 hu1
  have hb : ∀ x ∈ Set.Ioo (u:ℝ) (v:ℝ),
      (((N + 1) * Nat.choose N k : ℕ) : ℝ) * gR k N x ≤ ((posterior_density u k N : ℚ) : ℝ) := by
    intro x hx
    rw [hcu]
    apply mul_le_mul_of_nonneg_left _ (le_of_lt (cR_pos k N hkN))
    apply le_of_lt
    apply gR_strictAntiOn k N hk hkN
    · constructor
      · rw [← rat_mode_cast]
        exact_mod_cast hmu
      · exact_mod_cast hu1
    · constructor
      · have h1 : ((k : ℚ) / (N : ℚ) : ℚ) ≤ (u:ℚ) := hmu
        have h2 : (((k : ℚ) / (N : ℚ) : ℚ) : ℝ) ≤ ((u:ℚ):ℝ) := by exact_mod_cast h1
        rw [rat_mode_cast] at h2
        linarith [hx.1]
      · have h2 : x < (v:ℝ) := hx.2
        have h3 : ((v:ℚ):ℝ) ≤ 1 := by exact_mod_cast hv
        linarith
    · exact hx.1
  have hreal := FR_sub_le k N (le_of_lt hkN) (u:ℝ) (v:ℝ) _ (by exact_mod_cast huv) hb
  rw [← betainc_cast k N (le_of_lt hkN) u, ← betainc_cast k N (le_of_lt hkN) v] at hreal
  have : ((betainc (k + 1) (N - k + 1) v - betainc (k + 1) (N - k + 1) u : ℚ) : ℝ) ≤
      ((posterior_density u k N * (v - u) : ℚ) : ℝ) := by
    push_cast
    linarith
  exact_mod_cast this

theorem mass_ge_of_inside (k N : ℕ) (hk : 0 < k) (hkN : k < N) (a b u v : ℚ)
    (ha : 0 ≤ a) (ham : a ≤ (k : ℚ) / (N : ℚ)) (hmb : (k : ℚ) / (N : ℚ) ≤ b) (hb : b ≤ 1)
    (hd : posterior_density a k N = posterior_density b k N)
    (hau : a ≤ u) (huv : u ≤ v) (hvb : v ≤ b) :
    posterior_density a k N * (v - u) ≤
      betainc (k + 1) (N - k + 1) v - betainc (k + 1) (N - k + 1) u := by
  have ha1 : a ≤ 1 := le_trans ham (mode_le_one k N hkN)
  have hb0 : (0:ℚ) ≤ b := le_trans (by positivity) hmb
  have hca := posterior_density_cast k N hk hkN a ha ha1
  have hcb := posterior_density_cast k N hk hkN b hb0 hb
  have hgab : gR k N (a:ℝ) = gR k N (b:ℝ) := by
    have h1 : ((posterior_density a k N : ℚ) : ℝ) = ((posterior_density b k N : ℚ) : ℝ) := by
      exact_mod_cast congrArg (fun z : ℚ => (z : ℝ)) hd
    rw [hca, hcb] at h1
    exact mul_left_cancel₀ (ne_of_gt (cR_pos k N hkN)) h1
  have hbnd : ∀ x ∈ Set.Ioo (u:ℝ) (v:ℝ),
      ((posterior_density a k N : ℚ) : ℝ) ≤ (((N + 1) * Nat.choose N k : ℕ) : ℝ) * gR k N x := by
    intro x hx
    rw [hca]
    apply mul_le_mul_of_nonneg_left _ (le_of_lt (cR_pos k N hkN))
    have hax : (a:ℝ) < x := by
      have : ((a:ℚ):ℝ) ≤ ((u:ℚ):ℝ) := by exact_mod_cast hau
      linarith [hx.1]
    have hxb : x < (b:ℝ) := by
      have : ((v:ℚ):ℝ) ≤ ((b:ℚ):ℝ) := by exact_mod_cast hvb
      linarith [hx.2]
    rcases le_or_lt x ((k:ℝ)/(N:ℝ)) with hxm | hxm
    · apply le_of_lt
      apply gR_strictMonoOn k N hk hkN
      · constructor
        · exact_mod_cast ha
        · rw [← rat_mode_cast]
          exact_mod_cast ham
      · constructor
        · have : (0:ℝ) ≤ (a:ℝ) := by exact_mod_cast ha
          linarith
        · exact hxm
      · exact hax
    · rw [hgab]
      apply le_of_lt
      apply gR_strictAntiOn k N hk hkN
      · constructor
        · exact le_of_lt hxm
        · have : ((b:ℚ):ℝ) ≤ 1 := by exact_mod_cast hb
          linarith
      · constructor
        · rw [← rat_mode_cast]
          exact_mod_cast hmb
        · exact_mod_cast hb
      · exact hxb
  have hreal := FR_sub_ge k N (le_of_lt hkN) (u:ℝ) (v:ℝ) _ (by exact_mod_cast huv) hbnd
  rw [← betainc_cast k N (le_of_lt hkN) u, ← betainc_cast k N (le_of_lt hkN) v] at hreal
  have : ((posterior_density a k N * (v - u) : ℚ) : ℝ) ≤
      ((betainc (k + 1) (N - k + 1) v - betainc (k + 1) (N - k + 1) u : ℚ) : ℝ) := by
    push_cast
    linarith
  exact_mod_cast this

theorem hpd_pair_frame (k N : ℕ) (hk : 0 < k) (hkN : k < N) (C : ℚ)
    (hC0 : 0 < C) (hC1 : C < 1) (a b : ℚ)
    (ha : 0 ≤ a) (ham : a ≤ (k : ℚ) / (N : ℚ)) (hab : a ≤ b) (hb : b ≤ 1)
    (hd : posterior_density a k N = posterior_density b k N)
    (hm : beta_ab a b k N = C) :
    a < b ∧ (k : ℚ) / (N : ℚ) ≤ b ∧ 0 < a ∧ b < 1 ∧ 0 < posterior_density a k N ∧
    betainc (k + 1) (N - k + 1) b - betainc (k + 1) (N - k + 1) a = C := by
  have hm0 : (0:ℚ) < (k : ℚ) / (N : ℚ) := by
    have h1 : (0:ℚ) < (k:ℚ) := by
      have : 0 < k := hk
      exact_mod_cast this
    have h2 : (0:ℚ) < (N:ℚ) := by
      have : 0 < N := by omega
      exact_mod_cast this
    positivity
  have hm1 : (k : ℚ) / (N : ℚ) < 1 := by
    have hN : (0:ℚ) < (N : ℚ) := by
      have : 0 < N := by omega
      exact_mod_cast this
    rw [div_lt_one hN]
    exact_mod_cast hkN
  have hne : a ≠ b := by
    intro h
    rw [beta_ab, if_pos h] at hm
    exact absurd hm.symm (ne_of_gt hC0)
  have hlt : a < b := lt_of_le_of_ne hab hne
  have hFq : betainc (k + 1) (N - k + 1) b - betainc (k + 1) (N - k + 1) a = C := by
    rw [beta_ab, if_neg hne] at hm
    exact hm
  have hmb : (k : ℚ) / (N : ℚ) ≤ b := by
    by_contra hbm
    push_neg at hbm
    have := pd_lt_of_lt_left k N hk hkN a b ha hlt (le_of_lt hbm)
    exact absurd hd (ne_of_lt this)
  have hapos : 0 < a := by
    rcases lt_or_eq_of_le ha with h | h
    · exact h
    · exfalso
      rw [← h] at hd hlt
      rw [pd_zero_eq] at hd
      rcases lt_or_eq_of_le hb with hb' | hb'
      · have := pd_pos_of_mem k N hk hkN b (lt_of_lt_of_le hm0 hmb) hb'
        rw [← hd] at this
        exact lt_irrefl 0 this
      · rw [hb'] at hFq
        rw [betainc_one_eq k N (le_of_lt hkN), ← h, betainc_zero_eq, sub_zero] at hFq
        exact absurd hFq.symm (ne_of_lt hC1)
  have hb1 : b < 1 := by
    rcases lt_or_eq_of_le hb with h | h
    · exact h
    · exfalso
      rw [h] at hd hFq
      rw [pd_one_eq] at hd
      have hpda := pd_pos_of_mem k N hk hkN a hapos (lt_of_le_of_lt ham hm1)
      rw [hd] at hpda
      exact lt_irrefl 0 hpda
  refine ⟨hlt, hmb, hapos, hb1, ?_, hFq⟩
  exact pd_pos_of_mem k N hk hkN a hapos (lt_of_le_of_lt ham hm1)

theorem hpd_pair_dens_not_lt (k N : ℕ) (hk : 0 < k) (hkN : k < N) (C : ℚ)
    (hC0 : 0 < C) (hC1 : C < 1) (a₁ b₁ a₂ b₂ : ℚ)
    (ha₁ : 0 ≤ a₁) (ham₁ : a₁ ≤ (k : ℚ) / (N : ℚ)) (hab₁ : a₁ ≤ b₁) (hb₁ : b₁ ≤ 1)
    (hd₁ : posterior_density a₁ k N = posterior_density b₁ k N)
    (hm₁ : beta_ab a₁ b₁ k N = C)
    (ha₂ : 0 ≤ a₂) (ham₂ : a₂ ≤ (k : ℚ) / (N : ℚ)) (hab₂ : a₂ ≤ b₂) (hb₂ : b₂ ≤ 1)
    (hd₂ : posterior_density a₂ k N = posterior_density b₂ k N)
    (hm₂ : beta_ab a₂ b₂ k N = C) :
    ¬(posterior_density a₁ k N < posterior_density a₂ k N) := by
  intro hlt
  obtain ⟨hlt₁, hmb₁, hapos₁, hb1₁, hpd₁, hFq₁⟩ :=
    hpd_pair_frame k N hk hkN C hC0 hC1 a₁ b₁ ha₁ ham₁ hab₁ hb₁ hd₁ hm₁
  obtain ⟨hlt₂, hmb₂, hapos₂, hb1₂, hpd₂, hFq₂⟩ :=
    hpd_pair_frame k N hk hkN C hC0 hC1 a₂ b₂ ha₂ ham₂ hab₂ hb₂ hd₂ hm₂
  have haa : a₁ < a₂ := by
    rcases lt_trichotomy a₁ a₂ with h | h | h
    · exact h
    · rw [h] at hlt
      exact absurd hlt (lt_irrefl _)
    · have := pd_lt_of_lt_left k N hk hkN a₂ a₁ ha₂ h ham₁
      exact absurd (lt_trans hlt this) (lt_irrefl _)
  have hbb : b₂ < b₁ := by
    have hltb : posterior_density b₁ k N < posterior_density b₂ k N := by
      rw [← hd₁, ← hd₂]
      exact hlt
    rcases lt_trichotomy b₂ b₁ with h | h | h
    · exact h
    · rw [h] at hltb
      exact absurd hltb (lt_irrefl _)
    · have := pd_lt_of_lt_right k N hk hkN b₁ b₂ hmb₁ h hb₂
      exact absurd (lt_trans hltb this) (lt_irrefl _)
  have hFa : betainc (k + 1) (N - k + 1) a₁ < betainc (k + 1) (N - k + 1) a₂ :=
    betainc_strict_mono k N (le_of_lt hkN) a₁ a₂ ha₁ haa
      (le_trans ham₂ (mode_le_one k N hkN))
  have hFb : betainc (k + 1) (N - k + 1) b₂ < betainc (k + 1) (N - k + 1) b₁ :=
    betainc_strict_mono k N (le_of_lt hkN) b₂ b₁
      (le_trans (by positivity) hmb₂) hbb hb₁
  linarith [hFq₁, hFq₂]

theorem hpd_pair_unique (k N : ℕ) (hk : 0 < k) (hkN : k < N) (C : ℚ)
    (hC0 : 0 < C) (hC1 : C < 1) (a₁ b₁ a₂ b₂ : ℚ)
    (ha₁ : 0 ≤ a₁) (ham₁ : a₁ ≤ (k : ℚ) / (N : ℚ)) (hab₁ : a₁ ≤ b₁) (hb₁ : b₁ ≤ 1)
    (hd₁ : posterior_density a₁ k N = posterior_density b₁ k N)
    (hm₁ : beta_ab a₁ b₁ k N = C)
    (ha₂ : 0 ≤ a₂) (ham₂ : a₂ ≤ (k : ℚ) / (N : ℚ)) (hab₂ : a₂ ≤ b₂) (hb₂ : b₂ ≤ 1)
    (hd₂ : posterior_density a₂ k N = posterior_density b₂ k N)
    (hm₂ : beta_ab a₂ b₂ k N = C) :
    a₁ = a₂ ∧ b₁ = b₂ := by
  have h1 := hpd_pair_dens_not_lt k N hk hkN C hC0 hC1 a₁ b₁ a₂ b₂
    ha₁ ham₁ hab₁ hb₁ hd₁ hm₁ ha₂ ham₂ hab₂ hb₂ hd₂ hm₂
  have h2 := hpd_pair_dens_not_lt k N hk hkN C hC0 hC1 a₂ b₂ a₁ b₁
    ha₂ ham₂ hab₂ hb₂ hd₂ hm₂ ha₁ ham₁ hab₁ hb₁ hd₁ hm₁
  have hdeq : posterior_density a₁ k N = posterior_density a₂ k N := by
    rcases lt_trichotomy (posterior_density a₁ k N) (posterior_density a₂ k N) with h | h | h
    · exact absurd h h1
    · exact h
    · exact absurd h h2
  obtain ⟨hlt₁, hmb₁, hapos₁, hb1₁, hpd₁, hFq₁⟩ :=
    hpd_pair_frame k N hk hkN C hC0 hC1 a₁ b₁ ha₁ ham₁ hab₁ hb₁ hd₁ hm₁
  obtain ⟨hlt₂, hmb₂, hapos₂, hb1₂, hpd₂, hFq₂⟩ :=
    hpd_pair_frame k N hk hkN C hC0 hC1 a₂ b₂ ha₂ ham₂ hab₂ hb₂ hd₂ hm₂
  have haeq : a₁ = a₂ := by
    rcases lt_trichotomy a₁ a₂ with h | h | h
    · have := pd_lt_of_lt_left k N hk hkN a₁ a₂ ha₁ h ham₂
      exact absurd hdeq (ne_of_lt this)
    · exact h
    · have := pd_lt_of_lt_left k N hk hkN a₂ a₁ ha₂ h ham₁
      exact absurd hdeq.symm (ne_of_lt this)
  have hbeq : b₁ = b₂ := by
    have hdb : posterior_density b₁ k N = posterior_density b₂ k N := by
      rw [← hd₁, ← hd₂]
      exact hdeq
    rcases lt_trichotomy b₁ b₂ with h | h | h
    · have := pd_lt_of_lt_right k N hk hkN b₁ b₂ hmb₁ h hb₂
      exact absurd hdb.symm (ne_of_lt this)
    · exact h
    · have := pd_lt_of_lt_right k N hk hkN b₂ b₁ hmb₂ h hb₁
      exact absurd hdb (ne_of_lt this)
  exact ⟨haeq, hbeq⟩

theorem hpd_interval_shortest (k N : ℕ) (hk : 0 < k) (hkN : k < N) (C : ℚ)
    (hC0 : 0 < C) (hC1 : C < 1) (a b a' b' : ℚ)
    (ha : 0 ≤ a) (ham : a ≤ (k : ℚ) / (N : ℚ)) (hab : a ≤ b) (hb : b ≤ 1)
    (hd : posterior_density a k N = posterior_density b k N)
    (hm : beta_ab a b k N = C)
    (ha' : 0 ≤ a') (hab' : a' ≤ b') (hb' : b' ≤ 1)
    (hm' : beta_ab a' b' k N = C) :
    b - a ≤ b' - a' := by
  obtain ⟨hlt, hmb, hapos, hb1, hpd, hFq⟩ :=
    hpd_pair_frame k N hk hkN C hC0 hC1 a b ha ham hab hb hd hm
  have hne' : a' ≠ b' := by
    intro h
    rw [beta_ab, if_pos h] at hm'
    exact absurd hm'.symm (ne_of_gt hC0)
  have hFq' : betainc (k + 1) (N - k + 1) b' - betainc (k + 1) (N - k + 1) a' = C := by
    rw [beta_ab, if_neg hne'] at hm'
    exact hm'
  have hinC : posterior_density a k N * (b - a) ≤ C := by
    have := mass_ge_of_inside k N hk hkN a b a b ha ham hmb hb hd le_rfl hab le_rfl
    rw [hFq] at this
    exact this
  by_cases hcase1 : b' ≤ a
  · -- [a', b'] lies left of a
    have hCout : C ≤ posterior_density a k N * (b' - a') := by
      have := mass_le_of_left k N hk hkN a' b' a ha' hab' hcase1 ham
      rw [hFq'] at this
      exact this
    have := le_trans hinC hCout
    exact le_of_mul_le_mul_left (by linarith [this]) hpd
  · by_cases hcase2 : b ≤ a'
    · -- [a', b'] lies right of b
      have hCout : C ≤ posterior_density a k N * (b' - a') := by
        have hstep := mass_le_of_right k N hk hkN a' b' (le_trans hmb hcase2) hab' hb'
        rw [hFq'] at hstep
        have hmono : posterior_density a' k N ≤ posterior_density b k N := by
          rcases lt_or_eq_of_le hcase2 with h | h
          · exact le_of_lt (pd_lt_of_lt_right k N hk hkN b a' hmb h (le_trans hab' hb'))
          · rw [← h]
        rw [hd]
        calc C ≤ posterior_density a' k N * (b' - a') := hstep
          _ ≤ posterior_density b k N * (b' - a') :=
            mul_le_mul_of_nonneg_right hmono (by linarith)
      have := le_trans hinC hCout
      exact le_of_mul_le_mul_left (by linarith [this]) hpd
    · -- overlapping case
      push_neg at hcase1 hcase2
      have hc12 : max a a' ≤ min b b' :=
        max_le (le_min hab (le_of_lt hcase1)) (le_min (le_of_lt hcase2) hab')
      have P1 : betainc (k + 1) (N - k + 1) (max a a') - betainc (k + 1) (N - k + 1) a' ≤
          posterior_density a k N * (max a a' - a') := by
        rcases le_total a' a with h | h
        · rw [max_eq_left h]
          exact mass_le_of_left k N hk hkN a' a a ha' h le_rfl ham
        · rw [max_eq_right h]
          simp
      have P2 : betainc (k + 1) (N - k + 1) b' - betainc (k + 1) (N - k + 1) (min b b') ≤
          posterior_density a k N * (b' - min b b') := by
        rcases le_total b b' with h | h
        · rw [min_eq_left h]
          have hstep := mass_le_of_right k N hk hkN b b' hmb h hb'
          rw [hd]
          exact hstep
        · rw [min_eq_right h]
          simp
      have P3 : posterior_density a k N * (max a a' - a) ≤
          betainc (k + 1) (N - k + 1) (max a a') - betainc (k + 1) (N - k + 1) a :=
        mass_ge_of_inside k N hk hkN a b a (max a a') ha ham hmb hb hd le_rfl
          (le_max_left a a') (le_trans hc12 (min_le_left b b'))
      have P4 : posterior_density a k N * (b - min b b') ≤
          betainc (k + 1) (N - k + 1) b - betainc (k + 1) (N - k + 1) (min b b') :=
        mass_ge_of_inside k N hk hkN a b (min b b') b ha ham hmb hb hd
          (le_trans (le_max_left a a') hc12) (min_le_left b b') le_rfl
      have hkey : posterior_density a k N * ((max a a' - a) + (b - min b b')) ≤
          posterior_density a k N * ((max a a' - a') + (b' - min b b')) := by
        have e1 : betainc (k + 1) (N - k + 1) (max a a') - betainc (k + 1) (N - k + 1) a +
            (betainc (k + 1) (N - k + 1) b - betainc (k + 1) (N - k + 1) (min b b')) =
            betainc (k + 1) (N - k + 1) (max a a') - betainc (k + 1) (N - k + 1) a' +
            (betainc (k + 1) (N - k + 1) b' - betainc (k + 1) (N - k + 1) (min b b')) := by
          linarith [hFq, hFq']
        calc posterior_density a k N * ((max a a' - a) + (b - min b b'))
            = posterior_density a k N * (max a a' - a) +
              posterior_density a k N * (b - min b b') := by ring
          _ ≤ betainc (k + 1) (N - k + 1) (max a a') - betainc (k + 1) (N - k + 1) a +
              (betainc (k + 1) (N - k + 1) b - betainc (k + 1) (N - k + 1) (min b b')) := by
            linarith [P3, P4]
          _ = betainc (k + 1) (N - k + 1) (max a a') - betainc (k + 1) (N - k + 1) a' +
              (betainc (k + 1) (N - k + 1) b' - betainc (k + 1) (N - k + 1) (min b b')) := e1
          _ ≤ posterior_density a k N * (max a a' - a') +
              posterior_density a k N * (b' - min b b') := by
            linarith [P1, P2]
          _ = posterior_density a k N * ((max a a' - a') + (b' - min b b')) := by ring
      have hfin := le_of_mul_le_mul_left hkey hpd
      linarith [hfin]

theorem pd_cast_open (k N : ℕ) (hkN : k ≤ N) (q : ℚ) (h0 : 0 < q) (h1 : q < 1) :
    ((posterior_density q k N : ℚ) : ℝ) =
      (((N + 1) * Nat.choose N k : ℕ) : ℝ) * gR k N (q : ℝ) := by
  unfold posterior_density betaPdf betaFunc gR
  rw [if_pos ⟨h0, h1⟩]
  have e1 : k + 1 - 1 = k := by omega
  have e2 : N - k + 1 - 1 = N - k := by omega
  have e3 : k + 1 + (N - k + 1) - 1 = N + 1 := by omega
  rw [e1, e2, e3]
  have hfac : (Nat.choose N k * (Nat.factorial k * Nat.factorial (N - k)) : ℕ) =
      Nat.factorial N := by
    have h := Nat.choose_mul_factorial_mul_factorial hkN
    rw [← h]
    ring
  have key : (Nat.factorial (N + 1) : ℕ) =
      (N + 1) * (Nat.choose N k * (Nat.factorial k * Nat.factorial (N - k))) := by
    rw [hfac, Nat.factorial_succ]
  have hk0 : ((Nat.factorial k : ℚ) : ℝ) ≠ 0 := by
    have := Nat.factorial_pos k
    positivity
  have hnk0 : ((Nat.factorial (N - k) : ℚ) : ℝ) ≠ 0 := by
    have := Nat.factorial_pos (N - k)
    positivity
  have hn10 : ((Nat.factorial (N + 1) : ℚ) : ℝ) ≠ 0 := by
    have := Nat.factorial_pos (N + 1)
    positivity
  push_cast
  rw [div_div_eq_mul_div, div_eq_iff (by positivity)]
  push_cast [key]
  ring

theorem pd_pos_open (k N : ℕ) (hkN : k ≤ N) (q : ℚ) (h0 : 0 < q) (h1 : q < 1) :
    0 < posterior_density q k N := by
  have hc := pd_cast_open k N hkN q h0 h1
  have hg : (0:ℝ) < gR k N (q : ℝ) :=
    gR_pos k N _ (by exact_mod_cast h0) (by exact_mod_cast h1)
  have hcc : (0:ℝ) < (((N + 1) * Nat.choose N k : ℕ) : ℝ) := by
    have := Nat.choose_pos hkN
    positivity
  have : (0:ℝ) < ((posterior_density q k N : ℚ) : ℝ) := by
    rw [hc]
    exact mul_pos hcc hg
  exact_mod_cast this

theorem gR_zero_strictAntiOn (N : ℕ) (hN : 1 ≤ N) :
    StrictAntiOn (gR 0 N) (Set.Icc (0:ℝ) 1) := by
  intro x hx y hy hxy
  unfold gR
  simp only [pow_zero, one_mul, Nat.sub_zero]
  exact pow_lt_pow_left₀ (by linarith) (by linarith [hy.2]) (by omega)

theorem gR_self_strictMonoOn (N : ℕ) (hN : 1 ≤ N) :
    StrictMonoOn (gR N N) (Set.Icc (0:ℝ) 1) := by
  intro x hx y hy hxy
  unfold gR
  simp only [Nat.sub_self, pow_zero, mul_one]
  exact pow_lt_pow_left₀ hxy hx.1 (by omega)

theorem mass_le_right_k_zero (N : ℕ) (hN : 1 ≤ N) (p u v : ℚ)
    (hp0 : 0 < p) (hp1 : p < 1) (hpu : p ≤ u) (huv : u ≤ v) (hv : v ≤ 1) :
    betainc (0 + 1) (N - 0 + 1) v - betainc (0 + 1) (N - 0 + 1) u ≤
      posterior_density p 0 N * (v - u) := by
  have hcp := pd_cast_open 0 N (Nat.zero_le N) p hp0 hp1
  have hb : ∀ x ∈ Set.Ioo (u:ℝ) (v:ℝ),
      (((N + 1) * Nat.choose N 0 : ℕ) : ℝ) * gR 0 N x ≤
        ((posterior_density p 0 N : ℚ) : ℝ) := by
    intro x hx
    rw [hcp]
    apply mul_le_mul_of_nonneg_left _ (by positivity)
    apply le_of_lt
    apply gR_zero_strictAntiOn N hN
    · constructor
      · exact_mod_cast le_of_lt hp0
      · exact_mod_cast le_of_lt hp1
    · constructor
      · have h1 : ((p:ℚ):ℝ) ≤ ((u:ℚ):ℝ) := by exact_mod_cast hpu
        have h2 : (0:ℝ) < ((p:ℚ):ℝ) := by exact_mod_cast hp0
        linarith [hx.1]
      · have h3 : ((v:ℚ):ℝ) ≤ 1 := by exact_mod_cast hv
        linarith [hx.2]
    · have h1 : ((p:ℚ):ℝ) ≤ ((u:ℚ):ℝ) := by exact_mod_cast hpu
      linarith [hx.1]
  have hreal := FR_sub_le 0 N (Nat.zero_le N) (u:ℝ) (v:ℝ) _ (by exact_mod_cast huv) hb
  rw [← betainc_cast 0 N (Nat.zero_le N) u, ← betainc_cast 0 N (Nat.zero_le N) v] at hreal
  have : ((betainc (0 + 1) (N - 0 + 1) v - betainc (0 + 1) (N - 0 + 1) u : ℚ) : ℝ) ≤
      ((posterior_density p 0 N * (v - u) : ℚ) : ℝ) := by
    push_cast
    linarith
  exact_mod_cast this

theorem mass_ge_left_k_zero (N : ℕ) (hN : 1 ≤ N) (p u v : ℚ)
    (hp0 : 0 < p) (hp1 : p < 1) (hu : 0 ≤ u) (huv : u ≤ v) (hvp : v ≤ p) :
    posterior_density p 0 N * (v - u) ≤
      betainc (0 + 1) (N - 0 + 1) v - betainc (0 + 1) (N - 0 + 1) u := by
  have hcp := pd_cast_open 0 N (Nat.zero_le N) p hp0 hp1
  have hb : ∀ x ∈ Set.Ioo (u:ℝ) (v:ℝ),
      ((posterior_density p 0 N : ℚ) : ℝ) ≤
        (((N + 1) * Nat.choose N 0 : ℕ) : ℝ) * gR 0 N x := by
    intro x hx
    rw [hcp]
    apply mul_le_mul_of_nonneg_left _ (by positivity)
    apply le_of_lt
    apply gR_zero_strictAntiOn N hN
    · constructor
      · have h1 : (0:ℝ) ≤ ((u:ℚ):ℝ) := by exact_mod_cast hu
        linarith [hx.1]
      · have h2 : ((v:ℚ):ℝ) ≤ ((p:ℚ):ℝ) := by exact_mod_cast hvp
        have h3 : ((p:ℚ):ℝ) < 1 := by exact_mod_cast hp1
        linarith [hx.2]
    · constructor
      · exact_mod_cast le_of_lt hp0
      · exact_mod_cast le_of_lt hp1
    · have h2 : ((v:ℚ):ℝ) ≤ ((p:ℚ):ℝ) := by exact_mod_cast hvp
      linarith [hx.2]
  have hreal := FR_sub_ge 0 N (Nat.zero_le N) (u:ℝ) (v:ℝ) _ (by exact_mod_cast huv) hb
  rw [← betainc_cast 0 N (Nat.zero_le N) u, ← betainc_cast 0 N (Nat.zero_le N) v] at hreal
  have : ((posterior_density p 0 N * (v - u) : ℚ) : ℝ) ≤
      ((betainc (0 + 1) (N - 0 + 1) v - betainc (0 + 1) (N - 0 + 1) u : ℚ) : ℝ) := by
    push_cast
    linarith
  exact_mod_cast this

theorem mass_le_left_k_self (N : ℕ) (hN : 1 ≤ N) (p u v : ℚ)
    (hp0 : 0 < p) (hp1 : p < 1) (hu : 0 ≤ u) (huv : u ≤ v) (hvp : v ≤ p) :
    betainc (N + 1) (N - N + 1) v - betainc (N + 1) (N - N + 1) u ≤
      posterior_density p N N * (v - u) := by
  have hcp := pd_cast_open N N (le_refl N) p hp0 hp1
  have hb : ∀ x ∈ Set.Ioo (u:ℝ) (v:ℝ),
      (((N + 1) * Nat.choose N N : ℕ) : ℝ) * gR N N x ≤
        ((posterior_density p N N : ℚ) : ℝ) := by
    intro x hx
    rw [hcp]
    apply mul_le_mul_of_nonneg_left _ (by positivity)
    apply le_of_lt
    apply gR_self_strictMonoOn N hN
    · constructor
      · have h1 : (0:ℝ) ≤ ((u:ℚ):ℝ) := by exact_mod_cast hu
        linarith [hx.1]
      · have h2 : ((v:ℚ):ℝ) ≤ ((p:ℚ):ℝ) := by exact_mod_cast hvp
        have h3 : ((p:ℚ):ℝ) < 1 := by exact_mod_cast hp1
        linarith [hx.2]
    · constructor
      · exact_mod_cast le_of_lt hp0
      · exact_mod_cast le_of_lt hp1
    · have h2 : ((v:ℚ):ℝ) ≤ ((p:ℚ):ℝ) := by exact_mod_cast hvp
      linarith [hx.2]
  have hreal := FR_sub_le N N (le_refl N) (u:ℝ) (v:ℝ) _ (by exact_mod_cast huv) hb
  rw [← betainc_cast N N (le_refl N) u, ← betainc_cast N N (le_refl N) v] at hreal
  have : ((betainc (N + 1) (N - N + 1) v - betainc (N + 1) (N - N + 1) u : ℚ) : ℝ) ≤
      ((posterior_density p N N * (v - u) : ℚ) : ℝ) := by
    push_cast
    linarith
  exact_mod_cast this

theorem mass_ge_right_k_self (N : ℕ) (hN : 1 ≤ N) (p u v : ℚ)
    (hp0 : 0 < p) (hp1 : p < 1) (hpu : p ≤ u) (huv : u ≤ v) (hv : v ≤ 1) :
    posterior_density p N N * (v - u) ≤
      betainc (N + 1) (N - N + 1) v - betainc (N + 1) (N - N + 1) u := by
  have hcp := pd_cast_open N N (le_refl N) p hp0 hp1
  have hb : ∀ x ∈ Set.Ioo (u:ℝ) (v:ℝ),
      ((posterior_density p N N : ℚ) : ℝ) ≤
        (((N + 1) * Nat.choose N N : ℕ) : ℝ) * gR N N x := by
    intro x hx
    rw [hcp]
    apply mul_le_mul_of_nonneg_left _ (by positivity)
    apply le_of_lt
    apply gR_self_strictMonoOn N hN
    · constructor
      · exact_mod_cast le_of_lt hp0
      · exact_mod_cast le_of_lt hp1
    · constructor
      · have h1 : ((p:ℚ):ℝ) ≤ ((u:ℚ):ℝ) := by exact_mod_cast hpu
        have h2 : (0:ℝ) < ((p:ℚ):ℝ) := by exact_mod_cast hp0
        linarith [hx.1]
      · have h3 : ((v:ℚ):ℝ) ≤ 1 := by exact_mod_cast hv
        linarith [hx.2]
    · have h1 : ((p:ℚ):ℝ) ≤ ((u:ℚ):ℝ) := by exact_mod_cast hpu
      linarith [hx.1]
  have hreal := FR_sub_ge N N (le_refl N) (u:ℝ) (v:ℝ) _ (by exact_mod_cast huv) hb
  rw [← betainc_cast N N (le_refl N) u, ← betainc_cast N N (le_refl N) v] at hreal
  have : ((posterior_density p N N * (v - u) : ℚ) : ℝ) ≤
      ((betainc (N + 1) (N - N + 1) v - betainc (N + 1) (N - N + 1) u : ℚ) : ℝ) := by
    push_cast
    linarith
  exact_mod_cast this

theorem hpd_shortest_k_zero (N : ℕ) (hN : 1 ≤ N) (C : ℚ) (hC0 : 0 < C) (hC1 : C < 1)
    (b a' b' : ℚ) (hb0 : 0 ≤ b) (hb1 : b ≤ 1) (hm : beta_ab 0 b 0 N = C)
    (ha' : 0 ≤ a') (hab' : a' ≤ b') (hb'1 : b' ≤ 1) (hm' : beta_ab a' b' 0 N = C) :
    b ≤ b' - a' := by
  have hFq0 : betainc (0 + 1) (N - 0 + 1) 0 = 0 := betainc_zero_eq 0 N
  have hne : (0:ℚ) ≠ b := by
    intro h
    rw [beta_ab, if_pos h] at hm
    exact absurd hm.symm (ne_of_gt hC0)
  have hbpos : 0 < b := lt_of_le_of_ne hb0 hne
  have hFb : betainc (0 + 1) (N - 0 + 1) b = C := by
    rw [beta_ab, if_neg hne, hFq0, sub_zero] at hm
    exact hm
  have hblt1 : b < 1 := by
    rcases lt_or_eq_of_le hb1 with h | h
    · exact h
    · exfalso
      rw [h, betainc_one_eq 0 N (Nat.zero_le N)] at hFb
      exact absurd hFb.symm (ne_of_lt hC1)
  have hne' : a' ≠ b' := by
    intro h
    rw [beta_ab, if_pos h] at hm'
    exact absurd hm'.symm (ne_of_gt hC0)
  have hab'' : a' < b' := lt_of_le_of_ne hab' hne'
  have hFq' : betainc (0 + 1) (N - 0 + 1) b' - betainc (0 + 1) (N - 0 + 1) a' = C := by
    rw [beta_ab, if_neg hne'] at hm'
    exact hm'
  have hp := pd_pos_open 0 N (Nat.zero_le N) b hbpos hblt1
  have hCin : posterior_density b 0 N * b ≤ C := by
    have h1 := mass_ge_left_k_zero N hN b 0 b hbpos hblt1 le_rfl hb0 le_rfl
    rw [hFq0, hFb, sub_zero, sub_zero] at h1
    exact h1
  rcases le_or_lt b a' with hba' | ha'b
  · have hCout : C ≤ posterior_density b 0 N * (b' - a') := by
      have h1 := mass_le_right_k_zero N hN b a' b' hbpos hblt1 hba' hab' hb'1
      rw [hFq'] at h1
      exact h1
    exact le_of_mul_le_mul_left (by linarith [le_trans hCin hCout]) hp
  · rcases le_or_lt b b' with hbb' | hb'b
    · have hsl : betainc (0 + 1) (N - 0 + 1) a' - betainc (0 + 1) (N - 0 + 1) 0 =
          betainc (0 + 1) (N - 0 + 1) b' - betainc (0 + 1) (N - 0 + 1) b := by
        linarith [hFb, hFq', hFq0]
      have h1 := mass_ge_left_k_zero N hN b 0 a' hbpos hblt1 le_rfl ha' (le_of_lt ha'b)
      have h2 := mass_le_right_k_zero N hN b b b' hbpos hblt1 le_rfl hbb' hb'1
      have hkey : posterior_density b 0 N * (a' - 0) ≤ posterior_density b 0 N * (b' - b) := by
        linarith [h1, h2, hsl]
      have := le_of_mul_le_mul_left hkey hp
      linarith
    · exfalso
      have h1 : betainc (0 + 1) (N - 0 + 1) b' < betainc (0 + 1) (N - 0 + 1) b :=
        betainc_strict_mono 0 N (Nat.zero_le N) b' b (le_trans ha' hab') hb'b hb1
      have h2 : betainc (0 + 1) (N - 0 + 1) 0 ≤ betainc (0 + 1) (N - 0 + 1) a' := by
        rcases lt_or_eq_of_le ha' with h | h
        · exact le_of_lt (betainc_strict_mono 0 N (Nat.zero_le N) 0 a' le_rfl h
            (le_trans hab' hb'1))
        · rw [← h]
      linarith [hFb, hFq', hFq0]

theorem hpd_shortest_k_self (N : ℕ) (hN : 1 ≤ N) (C : ℚ) (hC0 : 0 < C) (hC1 : C < 1)
    (a a' b' : ℚ) (ha0 : 0 ≤ a) (ha1 : a ≤ 1) (hm : beta_ab a 1 N N = C)
    (ha' : 0 ≤ a') (hab' : a' ≤ b') (hb'1 : b' ≤ 1) (hm' : beta_ab a' b' N N = C) :
    1 - a ≤ b' - a' := by
  have hFq1 : betainc (N + 1) (N - N + 1) 1 = 1 := betainc_one_eq N N (le_refl N)
  have hne : a ≠ 1 := by
    intro h
    rw [beta_ab, if_pos h] at hm
    exact absurd hm.symm (ne_of_gt hC0)
  have halt1 : a < 1 := lt_of_le_of_ne ha1 hne
  have hFa : 1 - betainc (N + 1) (N - N + 1) a = C := by
    rw [beta_ab, if_neg hne, hFq1] at hm
    exact hm
  have hapos : 0 < a := by
    rcases lt_or_eq_of_le ha0 with h | h
    · exact h
    · exfalso
      rw [← h, betainc_zero_eq N N, sub_zero] at hFa
      exact absurd hFa.symm (ne_of_lt hC1)
  have hne' : a' ≠ b' := by
    intro h
    rw [beta_ab, if_pos h] at hm'
    exact absurd hm'.symm (ne_of_gt hC0)
  have hab'' : a' < b' := lt_of_le_of_ne hab' hne'
  have hFq' : betainc (N + 1) (N - N + 1) b' - betainc (N + 1) (N - N + 1) a' = C := by
    rw [beta_ab, if_neg hne'] at hm'
    exact hm'
  have hp := pd_pos_open N N (le_refl N) a hapos halt1
  have hCin : posterior_density a N N * (1 - a) ≤ C := by
    have h1 := mass_ge_right_k_self N hN a a 1 hapos halt1 le_rfl ha1 le_rfl
    rw [hFq1] at h1
    linarith [hFa]
  rcases le_or_lt b' a with hb'a | hab'2
  · have hCout : C ≤ posterior_density a N N * (b' - a') := by
      have h1 := mass_le_left_k_self N hN a a' b' hapos halt1 ha' hab' hb'a
      rw [hFq'] at h1
      exact h1
    exact le_of_mul_le_mul_left (by linarith [le_trans hCin hCout]) hp
  · rcases le_or_lt a' a with ha'a | haa'
    · have hsl : betainc (N + 1) (N - N + 1) a - betainc (N + 1) (N - N + 1) a' =
          betainc (N + 1) (N - N + 1) 1 - betainc (N + 1) (N - N + 1) b' := by
        linarith [hFa, hFq', hFq1]
      have h1 := mass_le_left_k_self N hN a a' a hapos halt1 ha' ha'a le_rfl
      have h2 := mass_ge_right_k_self N hN a b' 1 hapos halt1 (le_of_lt hab'2) hb'1 le_rfl
      have hkey : posterior_density a N N * (1 - b') ≤ posterior_density a N N * (a - a') := by
        linarith [h1, h2, hsl]
      have := le_of_mul_le_mul_left hkey hp
      linarith
    · exfalso
      have h1 : betainc (N + 1) (N - N + 1) a < betainc (N + 1) (N - N + 1) a' :=
        betainc_strict_mono N N (le_refl N) a a' ha0 haa' (le_trans hab' hb'1)
      have h2 : betainc (N + 1) (N - N + 1) b' ≤ betainc (N + 1) (N - N + 1) 1 := by
        rcases lt_or_eq_of_le hb'1 with h | h
        · exact le_of_lt (betainc_strict_mono N N (le_refl N) b' 1
            (le_trans ha' hab') h le_rfl)
        · rw [h]
      linarith [hFa, hFq', hFq1]

/-- Claim C7: for every `k`, `N` and every confidence level with `C ≤ 0` or
`C ≥ 1` (in particular `C = 0.0` and `C = 1.0`), `effic` fails with the
InvalidInput condition (the `ValueError` of its leading validation) before
any numerical work: the same error results for every `k`, `N` and injected
root finder, so nothing else is evaluated on this error path. -/
theorem effic_rejects_invalid_conflevel (k ntrials : ℕ) (conflevel : ℚ)
    (rf : RootFinder) (h : conflevel ≤ 0 ∨ 1 ≤ conflevel) :
    effic k ntrials conflevel rf = .error (.valueError msgConflevel) := by
  have hc : ¬(0 < conflevel ∧ conflevel < 1) := by
    rcases h with h | h
    · exact fun hc => absurd hc.1 (not_lt.2 h)
    · exact fun hc => absurd hc.2 (not_lt.2 h)
  unfold effic
  rw [if_pos hc]

/-- Witness for claim C7 at `C = 1`. -/
theorem effic_rejects_invalid_conflevel_witness :
    effic 5 10 1 rfZero = .error (.valueError msgConflevel) :=
  effic_rejects_invalid_conflevel 5 10 1 rfZero (Or.inr le_rfl)

/-- Claim C4, counterexample: at `k = 11 > N = 10` (violating `0 ≤ k ≤ N`)
with the valid confidence level `1/2`, `effic` does not fail with an
InvalidInput condition: it computes the mode and dispatches into the
general HPD solver, whose `assert` raises an `AssertionError` — a
different exception class than the `ValueError` used for InvalidInput. -/
theorem effic_no_trial_validation_cex :
    effic 11 10 (1/2) rfZero = .error (.assertionError msgAssert) ∧
    errClass (.assertionError msgAssert) ≠ errClass (.valueError msgConflevel) := by
  constructor
  · norm_num [effic, compute_hpd_interval, compute_hpd_interval_general]
  · decide

/-- Claim C4 (amended): `effic` performs no validation of `k` and `N`.
For every valid confidence level and every `k > N`, no InvalidInput
`ValueError` is raised: for `N ≥ 1` the call computes the mode and reaches
`compute_hpd_interval_general`, whose leading `assert 0 < k < ntrials`
fails with an `AssertionError`; for `N = 0` the mode computation `k / N`
itself raises a `ZeroDivisionError`.  Neither error has the exception
class `ValueError` of the InvalidInput condition. -/
theorem effic_invalid_k_raises_assertion (k ntrials : ℕ) (conflevel : ℚ)
    (rf : RootFinder) (hC : 0 < conflevel ∧ conflevel < 1) (hk : ntrials < k) :
    (1 ≤ ntrials → effic k ntrials conflevel rf = .error (.assertionError msgAssert)) ∧
    (ntrials = 0 → effic k ntrials conflevel rf = .error .zeroDivisionError) ∧
    errClass (.assertionError msgAssert) ≠ errClass (.valueError msgConflevel) ∧
    errClass .zeroDivisionError ≠ errClass (.valueError msgConflevel) := by
  refine ⟨?_, ?_, by decide, by decide⟩
  · intro hN
    have h0 : k ≠ 0 := by omega
    have h1 : k ≠ ntrials := by omega
    have h2 : ntrials ≠ 0 := by omega
    have h3 : ¬(0 < k ∧ k < ntrials) := by omega
    simp only [effic, compute_hpd_interval, compute_hpd_interval_general,
      if_neg (not_not_intro hC), if_neg h2, if_neg h0, if_neg h1, if_pos h3]
  · intro hN0
    subst hN0
    unfold effic
    rw [if_neg (not_not_intro hC), if_pos rfl]

/-- Witness for the amended claim C4 at `k = 11`, `N = 10` (assertion
path) and `k = 3`, `N = 0` (zero-division path). -/
theorem effic_invalid_k_raises_assertion_witness :
    effic 11 10 (1/3) rfZero = .error (.assertionError msgAssert) ∧
    effic 3 0 (1/3) rfZero = .error .zeroDivisionError :=
  ⟨(effic_invalid_k_raises_assertion 11 10 (1/3) rfZero (by norm_num) (by norm_num)).1
      (by norm_num),
   (effic_invalid_k_raises_assertion 3 0 (1/3) rfZero (by norm_num) (by norm_num)).2.1 rfl⟩

/-- Claim C6: in `searchupper`, with `total = mass(fixed, 1)`: if `total`
equals the target mass exactly, the result is exactly `1.0` and no root
search is performed (the result is the same for every root finder, which
is never consulted); if `total` is strictly less, the search fails with
the InsufficientMass condition.  `searchlower` mirrors this with
`total = mass(0, fixed)` and exact-equality short-circuit result `0.0`. -/
theorem search_bound_total_mass_cases (low high : ℚ) (k numtrials : ℕ)
    (c : ℚ) (rf : RootFinder) :
    (beta_ab low 1 k numtrials = c → searchupper low k numtrials c rf = .ok 1) ∧
    (beta_ab low 1 k numtrials < c →
      searchupper low k numtrials c rf =
        .error (.valueError (msgInsufficientUpper low (beta_ab low 1 k numtrials) c))) ∧
    (beta_ab 0 high k numtrials = c → searchlower high k numtrials c rf = .ok 0) ∧
    (beta_ab 0 high k numtrials < c →
      searchlower high k numtrials c rf =
        .error (.valueError (msgInsufficientLower high (beta_ab 0 high k numtrials) c))) := by
  refine ⟨fun h => ?_, fun h => ?_, fun h => ?_, fun h => ?_⟩
  · unfold searchupper
    rw [if_pos h]
  · unfold searchupper
    rw [if_neg (ne_of_lt h), if_pos h]
  · unfold searchlower
    rw [if_pos h]
  · unfold searchlower
    rw [if_neg (ne_of_lt h), if_pos h]

/-- Witness for claim C6: for the Beta(2, 2) posterior, the mass above and
below `1/2` is exactly `1/2`, triggering both short-circuits, and the
insufficient-mass failure fires for a target of `3/4`. -/
theorem search_bound_total_mass_cases_witness :
    searchupper (1/2) 1 2 (1/2) rfZero = .ok 1 ∧
    searchlower (1/2) 1 2 (1/2) rfZero = .ok 0 ∧
    searchupper (1/2) 1 2 (3/4) rfZero =
      .error (.valueError (msgInsufficientUpper (1/2) (beta_ab (1/2) 1 1 2) (3/4))) := by
  refine ⟨(search_bound_total_mass_cases (1/2) (1/2) 1 2 (1/2) rfZero).1 ?_,
      (search_bound_total_mass_cases (1/2) (1/2) 1 2 (1/2) rfZero).2.2.1 ?_,
      (search_bound_total_mass_cases (1/2) (1/2) 1 2 (3/4) rfZero).2.1 ?_⟩ <;>
    norm_num [beta_ab, betainc, Finset.sum_Icc_succ_top, Finset.Icc_self, Nat.choose]

/-- Claim C9: for every `k`, `N` and every `x` outside the open interval
`(0, 1)` the posterior density function returns `0` — it is a total
function with no exception path — while for `x ∈ (0, 1)` (and a valid
trial, `k ≤ N`) it returns the Beta(k+1, N-k+1) density at `x`. -/
theorem posterior_density_cases (x : ℚ) (k ntrials : ℕ) :
    ((x ≤ 0 ∨ 1 ≤ x) → posterior_density x k ntrials = 0) ∧
    (0 < x → x < 1 → k ≤ ntrials →
      posterior_density x k ntrials = betaDensity (k + 1) (ntrials - k + 1) x) := by
  constructor
  · intro h
    unfold posterior_density
    rw [if_neg]
    rcases h with h | h
    · exact fun hc => absurd hc.1 (not_lt.2 h)
    · exact fun hc => absurd hc.2 (not_lt.2 h)
  · intro h0 h1 _
    unfold posterior_density betaPdf betaDensity betaFunc
    rw [if_pos ⟨h0, h1⟩]
    have f1 : (0:ℚ) < ((k + 1 - 1).factorial : ℚ) := by
      exact_mod_cast Nat.factorial_pos _
    have f2 : (0:ℚ) < ((ntrials - k + 1 - 1).factorial : ℚ) := by
      exact_mod_cast Nat.factorial_pos _
    have f3 : (0:ℚ) < ((k + 1 + (ntrials - k + 1) - 1).factorial : ℚ) := by
      exact_mod_cast Nat.factorial_pos _
    field_simp
    ring

/-- Witness for claim C9 at `x = 2` (outside) and `x = 1/2` (inside). -/
theorem posterior_density_cases_witness :
    posterior_density 2 1 2 = 0 ∧
    posterior_density (1/2) 1 2 = betaDensity 2 2 (1/2) :=
  ⟨(posterior_density_cases 2 1 2).1 (Or.inr (by norm_num)),
   (posterior_density_cases (1/2) 1 2).2 (by norm_num) (by norm_num) (by norm_num)⟩

/-- Claim C5, counterexample: the InvalidInput, InsufficientMass and
ConvergenceFailure conditions are all raised as the single generic Python
exception class `ValueError`, as witnessed at concrete inputs triggering
each of the three conditions — contrary to the claim that the three are
never collapsed into a single generic failure type. -/
theorem err_conditions_share_class_cex :
    effic 5 10 2 rfZero = .error (.valueError msgConflevel) ∧
    searchupper (1/2) 1 2 (3/4) rfFail =
      .error (.valueError (msgInsufficientUpper (1/2) (beta_ab (1/2) 1 1 2) (3/4))) ∧
    searchupper (1/8) 1 2 (1/2) rfFail = .error (.valueError (msgBisectionUpper (1/8))) ∧
    errClass (.valueError msgConflevel) = "ValueError" ∧
    errClass (.valueError (msgInsufficientUpper (1/2) (beta_ab (1/2) 1 1 2) (3/4))) = "ValueError" ∧
    errClass (.valueError (msgBisectionUpper (1/8))) = "ValueError" := by
  refine ⟨?_, ?_, ?_, rfl, rfl, rfl⟩
  · norm_num [effic]
  · norm_num [searchupper, beta_ab, betainc, Finset.sum_Icc_succ_top, Finset.Icc_self,
      Nat.choose]
  · norm_num [searchupper, rfFail, beta_ab, betainc, Finset.sum_Icc_succ_top,
      Finset.Icc_self, Nat.choose]

/-- Claim C5 (amended): the three failure conditions all propagate to the
caller as `ValueError`s carrying three distinct, inspectable message
families (the message texts differ for all parameter values), but they
share the single exception class `ValueError` rather than being three
distinct exception types. -/
theorem error_conditions_inspectable (k ntrials : ℕ) (conflevel : ℚ)
    (rf : RootFinder) (low c : ℚ) (m : String) :
    (conflevel ≤ 0 ∨ 1 ≤ conflevel →
      effic k ntrials conflevel rf = .error (.valueError msgConflevel)) ∧
    (beta_ab low 1 k ntrials < c →
      searchupper low k ntrials c rf =
        .error (.valueError (msgInsufficientUpper low (beta_ab low 1 k ntrials) c))) ∧
    (c < beta_ab low 1 k ntrials →
      rf (fun x => .ok (beta_ab low x k ntrials - c)) low 1 xtolSearch =
        .error (.valueError m) →
      searchupper low k ntrials c rf = .error (.valueError (msgBisectionUpper low))) ∧
    msgConflevel ≠ msgInsufficientUpper low (beta_ab low 1 k ntrials) c ∧
    msgConflevel ≠ msgBisectionUpper low ∧
    msgInsufficientUpper low (beta_ab low 1 k ntrials) c ≠ msgBisectionUpper low ∧
    errClass (.valueError (msgInsufficientUpper low (beta_ab low 1 k ntrials) c)) =
      errClass (.valueError msgConflevel) ∧
    errClass (.valueError (msgBisectionUpper low)) = errClass (.valueError msgConflevel) := by
  refine ⟨?_, ?_, ?_, ?_, ?_, ?_, rfl, rfl⟩
  · intro h
    have hc : ¬(0 < conflevel ∧ conflevel < 1) := by
      rcases h with h | h
      · exact fun hc => absurd hc.1 (not_lt.2 h)
      · exact fun hc => absurd hc.2 (not_lt.2 h)
    unfold effic
    rw [if_pos hc]
  · intro h
    unfold searchupper
    rw [if_neg (ne_of_lt h), if_pos h]
  · intro h hrf
    unfold searchupper
    rw [if_neg (ne_of_gt h), if_neg (not_lt.2 (le_of_lt h)), hrf]
  · intro h
    have h2 := congrArg (fun v : String => v.data.head?) h
    simp only [msgConflevel, msgInsufficientUpper, String.data_append] at h2
    simp at h2
  · intro h
    have h2 := congrArg (fun v : String => v.data.head?) h
    simp only [msgConflevel, msgBisectionUpper, String.data_append] at h2
    simp at h2
  · intro h
    have h2 := congrArg (fun v : String => v.data.head?) h
    simp only [msgInsufficientUpper, msgBisectionUpper, String.data_append] at h2
    simp at h2

/-- Witness for the amended claim C5. -/
theorem error_conditions_inspectable_witness :
    effic 5 10 0 rfZero = .error (.valueError msgConflevel) ∧
    msgConflevel ≠ msgBisectionUpper (1/8) :=
  ⟨(error_conditions_inspectable 5 10 0 rfZero (1/8) (1/2) "x").1 (Or.inl le_rfl),
   (error_conditions_inspectable 5 10 0 rfZero (1/8) (1/2) "x").2.2.2.2.1⟩


theorem searchupper_ok_le_one (low : ℚ) (k numtrials : ℕ) (c : ℚ) (rf : RootFinder)
    (Hrf : ∀ f a b xtol r, rf f a b xtol = .ok r → a ≤ r ∧ r ≤ b)
    (h : ℚ) (hok : searchupper low k numtrials c rf = .ok h) : h ≤ 1 := by
  simp only [searchupper] at hok
  by_cases he : beta_ab low 1 k numtrials = c
  · rw [if_pos he] at hok
    injection hok with hh
    exact hh ▸ le_rfl
  · by_cases hl : beta_ab low 1 k numtrials < c
    · rw [if_neg he, if_pos hl] at hok
      exact absurd hok (by simp)
    · rw [if_neg he, if_neg hl] at hok
      cases hrf : rf (fun x => .ok (beta_ab low x k numtrials - c)) low 1 xtolSearch with
      | ok r =>
        rw [hrf] at hok
        injection hok with hh
        exact hh ▸ (Hrf _ _ _ _ _ hrf).2
      | error e =>
        rw [hrf] at hok
        cases e <;> simp at hok

theorem searchlower_ok_nonneg (high : ℚ) (k ntrials : ℕ) (c : ℚ) (rf : RootFinder)
    (Hrf : ∀ f a b xtol r, rf f a b xtol = .ok r → a ≤ r ∧ r ≤ b)
    (lo : ℚ) (hok : searchlower high k ntrials c rf = .ok lo) : 0 ≤ lo := by
  simp only [searchlower] at hok
  by_cases he : beta_ab 0 high k ntrials = c
  · rw [if_pos he] at hok
    injection hok with hh
    exact hh ▸ le_rfl
  · by_cases hl : beta_ab 0 high k ntrials < c
    · rw [if_neg he, if_pos hl] at hok
      exact absurd hok (by simp)
    · rw [if_neg he, if_neg hl] at hok
      cases hrf : rf (fun x => .ok (beta_ab x high k ntrials - c)) 0 high xtolSearch with
      | ok r =>
        rw [hrf] at hok
        injection hok with hh
        exact hh ▸ (Hrf _ _ _ _ _ hrf).1
      | error e =>
        rw [hrf] at hok
        cases e <;> simp at hok

/-- Claim C8: degenerate-case dispatch.  For `N ≥ 1`, `C ∈ (0, 1)` and a
root finder satisfying the in-bracket contract, `effic(0, N, C)` returns
`low = 0` and `high` equal to the result of the upper boundary search from
fixed endpoint `0` for target mass `C`, and `effic(N, N, C)` returns
`high = 1` and `low` equal to the lower boundary search from fixed
endpoint `1`, bypassing the general HPD solver in both cases. -/
theorem effic_degenerate_dispatch (ntrials : ℕ) (conflevel : ℚ) (rf : RootFinder)
    (hN : 1 ≤ ntrials) (hC : 0 < conflevel ∧ conflevel < 1)
    (Hrf : ∀ f a b xtol r, rf f a b xtol = .ok r → a ≤ r ∧ r ≤ b) :
    (∀ h, searchupper 0 0 ntrials conflevel rf = .ok h →
      effic 0 ntrials conflevel rf = .ok (0, 0, h)) ∧
    (∀ lo, searchlower 1 ntrials ntrials conflevel rf = .ok lo →
      effic ntrials ntrials conflevel rf = .ok (1, lo, 1)) := by
  have h2 : ntrials ≠ 0 := by omega
  constructor
  · intro h hs
    have hle : h ≤ 1 := searchupper_ok_le_one _ _ _ _ _ Hrf _ hs
    simp only [effic, compute_hpd_interval, compute_hpd_interval_k_zero,
      if_neg (not_not_intro hC), if_neg h2]
    rw [hs]
    simp [min_eq_right hle]
  · intro lo hs
    have h0 : 0 ≤ lo := searchlower_ok_nonneg _ _ _ _ _ Hrf _ hs
    simp only [effic, compute_hpd_interval, compute_hpd_interval_k_ntrials,
      if_neg (not_not_intro hC), if_neg h2, if_pos rfl]
    rw [hs]
    have hm : ((ntrials : ℚ)) / ((ntrials : ℚ)) = 1 :=
      div_self (by exact_mod_cast h2)
    simp [hm, max_eq_right h0]

/-- Witness for claim C8 at `N = 2`, `C = 1/2` with the left-endpoint
root finder. -/
theorem effic_degenerate_dispatch_witness :
    effic 0 2 (1/2) rfInBracket = .ok (0, 0, 0) ∧
    effic 2 2 (1/2) rfInBracket = .ok (1, 0, 1) := by
  have Hrf : ∀ (f : ℚ → Except Err ℚ) (a b xtol r : ℚ),
      rfInBracket f a b xtol = .ok r → a ≤ r ∧ r ≤ b := by
    intro f a b xtol r h
    unfold rfInBracket at h
    by_cases hab : a ≤ b
    · rw [if_pos hab] at h
      injection h with h'
      exact ⟨h' ▸ le_rfl, h' ▸ hab⟩
    · rw [if_neg hab] at h
      exact absurd h (by simp)
  constructor
  · refine (effic_degenerate_dispatch 2 (1/2) rfInBracket (by norm_num) (by norm_num) Hrf).1 0 ?_
    norm_num [searchupper, rfInBracket, beta_ab, betainc, Finset.sum_Icc_succ_top,
      Finset.Icc_self, Nat.choose]
  · refine (effic_degenerate_dispatch 2 (1/2) rfInBracket (by norm_num) (by norm_num) Hrf).2 0 ?_
    norm_num [searchlower, rfInBracket, beta_ab, betainc, Finset.sum_Icc_succ_top,
      Finset.Icc_self, Nat.choose]

/-- Claim C10: mode-straddling invariant.  For `0 < k < N`, whenever
`effic` returns successfully with a root finder satisfying the in-bracket
contract (the guarantee of the scipy bracketed finders), the returned
interval contains the posterior mode: `low ≤ k/N ≤ high`, because the two
endpoint roots are searched in the brackets `[0, k/N]` and `[k/N, 1]`. -/
theorem effic_interval_contains_mode (k ntrials : ℕ) (conflevel : ℚ)
    (rf : RootFinder) (mo lo hi : ℚ) (hk : 0 < k) (hkN : k < ntrials)
    (Hrf : ∀ f a b xtol r, rf f a b xtol = .ok r → a ≤ r ∧ r ≤ b)
    (hok : effic k ntrials conflevel rf = .ok (mo, lo, hi)) :
    lo ≤ (k : ℚ) / (ntrials : ℚ) ∧ (k : ℚ) / (ntrials : ℚ) ≤ hi := by
  have h0 : k ≠ 0 := by omega
  have h1 : k ≠ ntrials := by omega
  have h2 : ntrials ≠ 0 := by omega
  have h3 : ¬¬(0 < k ∧ k < ntrials) := not_not_intro ⟨hk, hkN⟩
  by_cases hCC : 0 < conflevel ∧ conflevel < 1
  · simp only [effic, compute_hpd_interval, compute_hpd_interval_general,
      if_neg (not_not_intro hCC), if_neg h2, if_neg h0, if_neg h1, if_neg h3] at hok
    cases hO : rf (mass_diff k ntrials conflevel rf) 0
        (posterior_density ((k : ℚ) / (ntrials : ℚ)) k ntrials) xtolDefault with
    | error e =>
      simp [hO] at hok
    | ok hh =>
      simp only [hO] at hok
      cases hA : rf (fun x => .ok (posterior_density x k ntrials - hh)) 0
          ((k : ℚ) / (ntrials : ℚ)) xtolInner with
      | error e =>
        simp [hA] at hok
      | ok a =>
        simp only [hA] at hok
        cases hB : rf (fun x => .ok (posterior_density x k ntrials - hh))
            ((k : ℚ) / (ntrials : ℚ)) 1 xtolInner with
        | error e =>
          simp [hB] at hok
        | ok b =>
          simp only [hB] at hok
          have hAb := Hrf _ _ _ _ _ hA
          have hBb := Hrf _ _ _ _ _ hB
          simp only [Except.ok.injEq, Prod.mk.injEq] at hok
          obtain ⟨hmo, hlo, hhi⟩ := hok
          have hmode0 : (0:ℚ) ≤ (k : ℚ) / (ntrials : ℚ) :=
            div_nonneg (by positivity) (by positivity)
          have hmode1 : (k : ℚ) / (ntrials : ℚ) ≤ 1 := by
            rw [div_le_one (by exact_mod_cast Nat.pos_of_ne_zero h2)]
            exact_mod_cast le_of_lt hkN
          constructor
          · rw [← hlo]
            exact max_le hmode0 hAb.2
          · rw [← hhi]
            exact le_min hmode1 hBb.1
  · rw [effic, if_pos hCC] at hok
    exact absurd hok (by simp)

theorem rfInBracket_contract : ∀ (f : ℚ → Except Err ℚ) (a b xtol r : ℚ),
    rfInBracket f a b xtol = .ok r → a ≤ r ∧ r ≤ b := by
  intro f a b xtol r h
  unfold rfInBracket at h
  by_cases hab : a ≤ b
  · rw [if_pos hab] at h
    injection h with h'
    exact ⟨h' ▸ le_rfl, h' ▸ hab⟩
  · rw [if_neg hab] at h
    exact absurd h (by simp)

/-- Witness for claim C10 at `k = 1`, `N = 2`, `C = 1/2`. -/
theorem effic_interval_contains_mode_witness :
    effic 1 2 (1/2) rfInBracket = .ok (1/2, 0, 1/2) ∧
    (0 : ℚ) ≤ ((1 : ℕ) : ℚ) / ((2 : ℕ) : ℚ) ∧ ((1 : ℕ) : ℚ) / ((2 : ℕ) : ℚ) ≤ 1/2 := by
  have hok : effic 1 2 (1/2) rfInBracket = .ok (1/2, 0, 1/2) := by
    norm_num [effic, compute_hpd_interval, compute_hpd_interval_general, rfInBracket,
      posterior_density, betaPdf, betaFunc, Nat.factorial]
  have H := effic_interval_contains_mode 1 2 (1/2) rfInBracket (1/2) 0 (1/2)
    (by norm_num) (by norm_num) rfInBracket_contract hok
  exact ⟨hok, H.1, H.2⟩

/-- Claim C1: for `0 < k < N` and `C ∈ (0, 1)`, under the idealized
root-finder contract (each consulted root is exact and lies in its
bracket), the pair `(low, high)` returned by `effic` satisfies both HPD
postconditions: the posterior mass of Beta(k+1, N-k+1) over `[low, high]`
equals `C` (exactly, hence within `1e-9`), and the posterior density at
`low` equals the posterior density at `high` (exactly, hence within
`1e-6` relative). -/
theorem effic_hpd_exact (k ntrials : ℕ) (conflevel : ℚ) (rf : RootFinder)
    (h a b : ℚ) (hk : 0 < k) (hkN : k < ntrials) (hC : 0 < conflevel ∧ conflevel < 1)
    (hout : rf (mass_diff k ntrials conflevel rf) 0
        (posterior_density ((k : ℚ) / (ntrials : ℚ)) k ntrials) xtolDefault = .ok h)
    (hroot : mass_diff k ntrials conflevel rf h = .ok 0)
    (ha : rf (fun x => .ok (posterior_density x k ntrials - h)) 0
        ((k : ℚ) / (ntrials : ℚ)) xtolInner = .ok a)
    (hb : rf (fun x => .ok (posterior_density x k ntrials - h))
        ((k : ℚ) / (ntrials : ℚ)) 1 xtolInner = .ok b)
    (hra : posterior_density a k ntrials - h = 0)
    (hrb : posterior_density b k ntrials - h = 0)
    (ha0 : 0 ≤ a) (hb1 : b ≤ 1) :
    effic k ntrials conflevel rf = .ok ((k : ℚ) / (ntrials : ℚ), a, b) ∧
    beta_ab a b k ntrials = conflevel ∧
    |beta_ab a b k ntrials - conflevel| ≤ 1 / 10 ^ 9 ∧
    posterior_density a k ntrials = posterior_density b k ntrials ∧
    |posterior_density a k ntrials - posterior_density b k ntrials| ≤
      1 / 10 ^ 6 * |posterior_density b k ntrials| := by
  have h0 : k ≠ 0 := by omega
  have h1 : k ≠ ntrials := by omega
  have h2 : ntrials ≠ 0 := by omega
  have h3 : ¬¬(0 < k ∧ k < ntrials) := not_not_intro ⟨hk, hkN⟩
  have hmass : beta_ab a b k ntrials = conflevel := by
    simp only [mass_diff, ha, hb] at hroot
    injection hroot with hr
    linarith [hr]
  have hdens : posterior_density a k ntrials = posterior_density b k ntrials := by
    have : posterior_density a k ntrials = h := by linarith [hra]
    have hb' : posterior_density b k ntrials = h := by linarith [hrb]
    rw [this, hb']
  refine ⟨?_, hmass, ?_, hdens, ?_⟩
  · simp only [effic, compute_hpd_interval, compute_hpd_interval_general,
      if_neg (not_not_intro hC), if_neg h2, if_neg h0, if_neg h1, if_neg h3,
      hout, ha, hb]
    rw [max_eq_right ha0, min_eq_right hb1]
  · rw [hmass, sub_self, abs_zero]
    positivity
  · rw [hdens, sub_self, abs_zero]
    positivity

/-- Witness for claim C1 at `k = 1`, `N = 2`, `C = 11/16`, where the HPD
interval is exactly `[1/4, 3/4]` at density level `9/8`. -/
theorem effic_hpd_exact_witness :
    effic 1 2 (11/16) rfW = .ok (1/2, 1/4, 3/4) ∧
    beta_ab (1/4) (3/4) 1 2 = 11/16 ∧
    posterior_density (1/4) 1 2 = posterior_density (3/4) 1 2 := by
  obtain ⟨h1, h2, _, h4, _⟩ :=
    effic_hpd_exact 1 2 (11/16) rfW (9/8) (1/4) (3/4)
      (by norm_num) (by norm_num) (by norm_num)
      (by norm_num [rfW, posterior_density, betaPdf, betaFunc, Nat.factorial])
      (by norm_num [mass_diff, rfW, posterior_density, betaPdf, betaFunc, Nat.factorial,
        beta_ab, betainc, Finset.sum_Icc_succ_top, Finset.Icc_self, Nat.choose])
      (by norm_num [rfW])
      (by norm_num [rfW])
      (by norm_num [posterior_density, betaPdf, betaFunc, Nat.factorial])
      (by norm_num [posterior_density, betaPdf, betaFunc, Nat.factorial])
      (by norm_num) (by norm_num)
  refine ⟨?_, h2, h4⟩
  simpa using h1

/-- Claim C3: shortest-interval optimality, for every valid `(k, N, C)`.
Under the idealized search contracts (exact, in-bracket results), the
interval returned by `effic` is never wider than any interval obtained by
moving `low` by a positive offset toward `0` (or `high` toward `1`) and
recomputing the matching opposite bound by the boundary search for the
same target mass `C`.  Three cases cover the valid inputs: the general
case `0 < k < N` (both directions); `k = 0`, where `low = 0` admits no
positive offset and the substantive direction grows `high` toward `1`,
recomputing `low` via the lower boundary search; and `k = N`, where
`high = 1` and the substantive direction shrinks `low` toward `0`,
recomputing `high` via the upper boundary search. -/
theorem effic_shortest_interval (k ntrials : ℕ) (conflevel : ℚ) (rf : RootFinder)
    (h a b : ℚ) (hC : 0 < conflevel ∧ conflevel < 1) :
    (0 < k → k < ntrials →
      rf (mass_diff k ntrials conflevel rf) 0
        (posterior_density ((k : ℚ) / (ntrials : ℚ)) k ntrials) xtolDefault = .ok h →
      mass_diff k ntrials conflevel rf h = .ok 0 →
      rf (fun x => .ok (posterior_density x k ntrials - h)) 0
        ((k : ℚ) / (ntrials : ℚ)) xtolInner = .ok a →
      rf (fun x => .ok (posterior_density x k ntrials - h))
        ((k : ℚ) / (ntrials : ℚ)) 1 xtolInner = .ok b →
      posterior_density a k ntrials - h = 0 →
      posterior_density b k ntrials - h = 0 →
      0 ≤ a → a ≤ (k : ℚ) / (ntrials : ℚ) → (k : ℚ) / (ntrials : ℚ) ≤ b → b ≤ 1 →
      effic k ntrials conflevel rf = .ok ((k : ℚ) / (ntrials : ℚ), a, b) ∧
      (∀ (rf' : RootFinder) (low' high' : ℚ), 0 ≤ low' → low' < a →
        searchupper low' k ntrials conflevel rf' = .ok high' →
        beta_ab low' high' k ntrials = conflevel → low' ≤ high' → high' ≤ 1 →
        b - a ≤ high' - low') ∧
      (∀ (rf' : RootFinder) (low'' high'' : ℚ), b < high'' → high'' ≤ 1 →
        searchlower high'' k ntrials conflevel rf' = .ok low'' →
        beta_ab low'' high'' k ntrials = conflevel → 0 ≤ low'' → low'' ≤ high'' →
        b - a ≤ high'' - low'')) ∧
    (k = 0 → 1 ≤ ntrials →
      searchupper 0 0 ntrials conflevel rf = .ok b →
      beta_ab 0 b 0 ntrials = conflevel → 0 ≤ b → b ≤ 1 →
      effic 0 ntrials conflevel rf = .ok (0, 0, b) ∧
      (∀ (rf' : RootFinder) (low'' high'' : ℚ), b < high'' → high'' ≤ 1 →
        searchlower high'' 0 ntrials conflevel rf' = .ok low'' →
        beta_ab low'' high'' 0 ntrials = conflevel → 0 ≤ low'' → low'' ≤ high'' →
        b - 0 ≤ high'' - low'')) ∧
    (k = ntrials → 1 ≤ ntrials →
      searchlower 1 ntrials ntrials conflevel rf = .ok a →
      beta_ab a 1 ntrials ntrials = conflevel → 0 ≤ a → a ≤ 1 →
      effic ntrials ntrials conflevel rf = .ok (1, a, 1) ∧
      (∀ (rf' : RootFinder) (low' high' : ℚ), 0 ≤ low' → low' < a →
        searchupper low' ntrials ntrials conflevel rf' = .ok high' →
        beta_ab low' high' ntrials ntrials = conflevel → low' ≤ high' → high' ≤ 1 →
        1 - a ≤ high' - low')) := by
  refine ⟨?_, ?_, ?_⟩
  · intro hk hkN hout hroot hA hB hra hrb ha0 ham hbm hb1
    have h0 : k ≠ 0 := by omega
    have h1 : k ≠ ntrials := by omega
    have h2 : ntrials ≠ 0 := by omega
    have h3 : ¬¬(0 < k ∧ k < ntrials) := not_not_intro ⟨hk, hkN⟩
    have hmass : beta_ab a b k ntrials = conflevel := by
      simp only [mass_diff, hA, hB] at hroot
      injection hroot with hr
      linarith [hr]
    have hdens : posterior_density a k ntrials = posterior_density b k ntrials := by
      have h4 : posterior_density a k ntrials = h := by linarith [hra]
      have h5 : posterior_density b k ntrials = h := by linarith [hrb]
      rw [h4, h5]
    have hab : a ≤ b := le_trans ham hbm
    refine ⟨?_, ?_, ?_⟩
    · simp only [effic, compute_hpd_interval, compute_hpd_interval_general,
        if_neg (not_not_intro hC), if_neg h2, if_neg h0, if_neg h1, if_neg h3,
        hout, hA, hB]
      rw [max_eq_right ha0, min_eq_right hb1]
    · intro rf' low' high' hlow0 hlowa hsu hmass' hlh hh1
      exact hpd_interval_shortest k ntrials hk hkN conflevel hC.1 hC.2 a b low' high'
        ha0 ham hab hb1 hdens hmass hlow0 hlh hh1 hmass'
    · intro rf' low'' high'' hbh hh1 hsl hmass'' hl0 hlh
      exact hpd_interval_shortest k ntrials hk hkN conflevel hC.1 hC.2 a b low'' high''
        ha0 ham hab hb1 hdens hmass hl0 hlh hh1 hmass''
  · intro hk0 hN hsu hmass hbl0 hbl1
    subst hk0
    have h2 : ntrials ≠ 0 := by omega
    constructor
    · simp only [effic, compute_hpd_interval, compute_hpd_interval_k_zero,
        if_neg (not_not_intro hC), if_neg h2]
      rw [hsu]
      simp [min_eq_right hbl1]
    · intro rf' low'' high'' hbh hh1 hsl hm'' hl0 hlh
      have := hpd_shortest_k_zero ntrials hN conflevel hC.1 hC.2 b low'' high''
        hbl0 hbl1 hmass hl0 hlh hh1 hm''
      linarith
  · intro hkN hN hsl hmass ha0 ha1
    subst hkN
    have h2 : k ≠ 0 := by omega
    constructor
    · simp only [effic, compute_hpd_interval, compute_hpd_interval_k_ntrials,
        if_neg (not_not_intro hC), if_neg h2, if_pos rfl]
      rw [hsl]
      have hm : ((k : ℚ)) / ((k : ℚ)) = 1 :=
        div_self (by exact_mod_cast h2)
      simp [hm, max_eq_right ha0]
    · intro rf' low' high' hl0 hla hsu hm' hlh hh1
      have := hpd_shortest_k_self k hN conflevel hC.1 hC.2 a low' high'
        ha0 ha1 hmass hl0 hlh hh1 hm'
      linarith

/-- Witness for claim C3: the general case at `k = 1`, `N = 2`,
`C = 11/16` (interval `[1/4, 3/4]`), the `k = 0` case at `N = 1`,
`C = 3/4` (interval `[0, 1/2]`), and the `k = N` case at `N = 1`,
`C = 3/4` (interval `[1/2, 1]`). -/
theorem effic_shortest_interval_witness :
    effic 1 2 (11/16) rfW = .ok (1/2, 1/4, 3/4) ∧
    effic 0 1 (3/4) rfHalf = .ok (0, 0, 1/2) ∧
    effic 1 1 (3/4) rfHalf = .ok (1, 1/2, 1) ∧
    (∀ (rf' : RootFinder) (low'' high'' : ℚ), (1:ℚ)/2 < high'' → high'' ≤ 1 →
      searchlower high'' 0 1 (3/4) rf' = .ok low'' →
      beta_ab low'' high'' 0 1 = 3/4 → 0 ≤ low'' → low'' ≤ high'' →
      (1:ℚ)/2 - 0 ≤ high'' - low'') := by
  have T1 := (effic_shortest_interval 1 2 (11/16) rfW (9/8) (1/4) (3/4) (by norm_num)).1
    (by norm_num) (by norm_num)
    (by norm_num [rfW, posterior_density, betaPdf, betaFunc, Nat.factorial])
    (by norm_num [mass_diff, rfW, posterior_density, betaPdf, betaFunc, Nat.factorial,
      beta_ab, betainc, Finset.sum_Icc_succ_top, Finset.Icc_self, Nat.choose])
    (by norm_num [rfW])
    (by norm_num [rfW])
    (by norm_num [posterior_density, betaPdf, betaFunc, Nat.factorial])
    (by norm_num [posterior_density, betaPdf, betaFunc, Nat.factorial])
    (by norm_num) (by norm_num) (by norm_num) (by norm_num)
  have T2 := (effic_shortest_interval 0 1 (3/4) rfHalf 0 0 (1/2) (by norm_num)).2.1
    rfl (by norm_num)
    (by norm_num [searchupper, rfHalf, beta_ab, betainc, Finset.sum_Icc_succ_top,
      Finset.Icc_self, Nat.choose])
    (by norm_num [beta_ab, betainc, Finset.sum_Icc_succ_top, Finset.Icc_self, Nat.choose])
    (by norm_num) (by norm_num)
  have T3 := (effic_shortest_interval 1 1 (3/4) rfHalf 0 (1/2) 1 (by norm_num)).2.2
    rfl (by norm_num)
    (by norm_num [searchlower, rfHalf, beta_ab, betainc, Finset.sum_Icc_succ_top,
      Finset.Icc_self, Nat.choose])
    (by norm_num [beta_ab, betainc, Finset.sum_Icc_succ_top, Finset.Icc_self, Nat.choose])
    (by norm_num) (by norm_num)
  exact ⟨by simpa using T1.1, T2.1, T3.1, T2.2⟩

/-- Claim C2: the algorithm selector (modelled from the spec, the newer
core being absent from `src`) offers the two interchangeable HPD
algorithms `ROOT_FINDING` and `BINARY_SEARCH`; for `0 < k < N` and valid
`C`, under the idealized exact convergence of both searches, the two
algorithms produce exactly the same mode, and their `low` and `high`
endpoints are exactly equal — in particular within `1e-9` of each other. -/
theorem hpd_algorithms_equivalent (k ntrials : ℕ) (conflevel : ℚ) (rf : RootFinder)
    (bs : (ℚ → Except Err ℚ) → ℚ → ℚ → Except Err ℚ)
    (h a b lowB highB : ℚ) (hk : 0 < k) (hkN : k < ntrials)
    (hC : 0 < conflevel ∧ conflevel < 1)
    (hout : rf (mass_diff k ntrials conflevel rf) 0
        (posterior_density ((k : ℚ) / (ntrials : ℚ)) k ntrials) xtolDefault = .ok h)
    (hroot : mass_diff k ntrials conflevel rf h = .ok 0)
    (ha : rf (fun x => .ok (posterior_density x k ntrials - h)) 0
        ((k : ℚ) / (ntrials : ℚ)) xtolInner = .ok a)
    (hb : rf (fun x => .ok (posterior_density x k ntrials - h))
        ((k : ℚ) / (ntrials : ℚ)) 1 xtolInner = .ok b)
    (hra : posterior_density a k ntrials - h = 0)
    (hrb : posterior_density b k ntrials - h = 0)
    (ha0 : 0 ≤ a) (ham : a ≤ (k : ℚ) / (ntrials : ℚ))
    (hbm : (k : ℚ) / (ntrials : ℚ) ≤ b) (hb1 : b ≤ 1)
    (hbs : bs (fun x =>
        match searchupper x k ntrials conflevel rf with
        | .error e => .error e
        | .ok hi => .ok (posterior_density x k ntrials - posterior_density hi k ntrials)) 0
        ((k : ℚ) / (ntrials : ℚ)) = .ok lowB)
    (hsuB : searchupper lowB k ntrials conflevel rf = .ok highB)
    (hdB : posterior_density lowB k ntrials = posterior_density highB k ntrials)
    (hmB : beta_ab lowB highB k ntrials = conflevel)
    (hlow0 : 0 ≤ lowB) (hlowm : lowB ≤ (k : ℚ) / (ntrials : ℚ))
    (hhiB : lowB ≤ highB) (hhiB1 : highB ≤ 1) :
    efficAlg k ntrials conflevel .ROOT_FINDING rf bs =
      .ok ((k : ℚ) / (ntrials : ℚ), a, b) ∧
    efficAlg k ntrials conflevel .BINARY_SEARCH rf bs =
      .ok ((k : ℚ) / (ntrials : ℚ), lowB, highB) ∧
    a = lowB ∧ b = highB ∧
    |a - lowB| ≤ 1 / 10 ^ 9 ∧ |b - highB| ≤ 1 / 10 ^ 9 := by
  have h0 : k ≠ 0 := by omega
  have h1 : k ≠ ntrials := by omega
  have h2 : ntrials ≠ 0 := by omega
  have h3 : ¬¬(0 < k ∧ k < ntrials) := not_not_intro ⟨hk, hkN⟩
  have hmass : beta_ab a b k ntrials = conflevel := by
    simp only [mass_diff, ha, hb] at hroot
    injection hroot with hr
    linarith [hr]
  have hdens : posterior_density a k ntrials = posterior_density b k ntrials := by
    have h4 : posterior_density a k ntrials = h := by linarith [hra]
    have h5 : posterior_density b k ntrials = h := by linarith [hrb]
    rw [h4, h5]
  have hab : a ≤ b := le_trans ham hbm
  obtain ⟨haeq, hbeq⟩ := hpd_pair_unique k ntrials hk hkN conflevel hC.1 hC.2
    a b lowB highB ha0 ham hab hb1 hdens hmass hlow0 hlowm hhiB hhiB1 hdB hmB
  refine ⟨?_, ?_, haeq, hbeq, ?_, ?_⟩
  · simp only [efficAlg, compute_hpd_interval_general,
      if_neg (not_not_intro hC), if_neg h2, if_neg h0, if_neg h1, if_neg h3,
      hout, ha, hb]
    rw [max_eq_right ha0, min_eq_right hb1]
  · simp only [efficAlg, shortest_hpd_binary_search,
      if_neg (not_not_intro hC), if_neg h2, if_neg h0, if_neg h1,
      hbs, hsuB]
    rw [max_eq_right hlow0, min_eq_right hhiB1]
  · rw [haeq, sub_self, abs_zero]
    positivity
  · rw [hbeq, sub_self, abs_zero]
    positivity

/-- Witness for claim C2 at `k = 1`, `N = 2`, `C = 11/16`: both algorithms
return the interval `[1/4, 3/4]`. -/
theorem hpd_algorithms_equivalent_witness :
    efficAlg 1 2 (11/16) .ROOT_FINDING rfW bsW = .ok (1/2, 1/4, 3/4) ∧
    efficAlg 1 2 (11/16) .BINARY_SEARCH rfW bsW = .ok (1/2, 1/4, 3/4) ∧
    |(1:ℚ)/4 - 1/4| ≤ 1 / 10 ^ 9 ∧ |(3:ℚ)/4 - 3/4| ≤ 1 / 10 ^ 9 := by
  obtain ⟨h1, h2, _, _, h5, h6⟩ :=
    hpd_algorithms_equivalent 1 2 (11/16) rfW bsW (9/8) (1/4) (3/4) (1/4) (3/4)
      (by norm_num) (by norm_num) (by norm_num)
      (by norm_num [rfW, posterior_density, betaPdf, betaFunc, Nat.factorial])
      (by norm_num [mass_diff, rfW, posterior_density, betaPdf, betaFunc, Nat.factorial,
        beta_ab, betainc, Finset.sum_Icc_succ_top, Finset.Icc_self, Nat.choose])
      (by norm_num [rfW])
      (by norm_num [rfW])
      (by norm_num [posterior_density, betaPdf, betaFunc, Nat.factorial])
      (by norm_num [posterior_density, betaPdf, betaFunc, Nat.factorial])
      (by norm_num) (by norm_num) (by norm_num) (by norm_num)
      (by norm_num [bsW])
      (by norm_num [searchupper, rfW, beta_ab, betainc, Finset.sum_Icc_succ_top,
        Finset.Icc_self, Nat.choose])
      (by norm_num [posterior_density, betaPdf, betaFunc, Nat.factorial])
      (by norm_num [beta_ab, betainc, Finset.sum_Icc_succ_top, Finset.Icc_self, Nat.choose])
      (by norm_num) (by norm_num) (by norm_num) (by norm_num)
  exact ⟨by simpa using h1, by simpa using h2, h5, h6⟩
